import Mathlib

/-!
Verification development for the visual identity resolution engine of the
abi-market-data collector.

The definitions below are a shallow embedding of the Python source:

* `src/collector/utils.py` — perceptual fingerprinting
  (`compute_thumbnail_hash`), hamming distance on hex strings
  (`hamming_distance_hex`), color signatures (`compute_color_signature`,
  `hue_bin_distance`).
* `src/collector/main.py` (`continuous_capture`) — the tiered matching that
  decides whether a freshly captured icon reuses an existing stored
  fingerprint stem, and the identity-key disambiguation policy.
* `src/collector/cleanup_thumbs.py` — the offline batch reconciler
  (its own `hamming_distance_hex` variant, `group_similar_hashes`,
  `choose_canonical`, `update_snapshots`, and the orchestration in `main`).

Machine integers and Python ints are modelled as `Nat`/`Int`; Python floats
that only carry exact integral or rational intermediate values are modelled
as `ℚ` (none of the proved properties depends on binary floating point
rounding).  String slicing is modelled directly on the character list of a
`String`, mirroring Python slice semantics.
-/

namespace AbiMarket

/-- Hex digit value of a character as accepted by Python `int(s, 16)`:
decimal digits and the letters a–f in either case. -/
def hexDigitVal? (c : Char) : Option Nat :=
  if '0' ≤ c ∧ c ≤ '9' then some (c.toNat - 48)
  else if 'a' ≤ c ∧ c ≤ 'f' then some (c.toNat - 87)
  else if 'A' ≤ c ∧ c ≤ 'F' then some (c.toNat - 55)
  else none

/-- Whether a character is a hex digit (parseable by `hexDigitVal?`). -/
def isHexDigitB (c : Char) : Bool :=
  (hexDigitVal? c).isSome

/-- Helper for `popcount`: structural recursion on a fuel argument so that
concrete instances reduce inside the kernel.  `popcountAux fuel n` is the
population count of `n` whenever `fuel ≥ n` (halving needs at most `n`
steps). -/
def popcountAux : Nat → Nat → Nat
  | 0, _ => 0
  | fuel + 1, n => if n = 0 then 0 else popcountAux fuel (n / 2) + n % 2

/-- Population count of a natural number: the model of Python
`bin(x).count("1")`. -/
def popcount (n : Nat) : Nat := popcountAux n n

/-- One step of big-endian hex parsing; a non-digit poisons the
accumulator, modelling the `ValueError` of Python `int(s, 16)`. -/
def parseHexStep (acc : Option Nat) (c : Char) : Option Nat :=
  match acc, hexDigitVal? c with
  | some a, some d => some (16 * a + d)
  | _, _ => none

/-- Parse a character list as a big-endian hex numeral.  Returns `none` on
the empty list or when any character is not a hex digit, modelling the
success/failure behaviour of Python `int(s, 16)` on the plain hex-digit
strings this system manipulates (filename stems; sign/underscore/"0x"
spellings never occur here). -/
def parseHexList (cs : List Char) : Option Nat :=
  if cs = [] then none else cs.foldl parseHexStep (some 0)

/-- Parse a string as a hex numeral (see `parseHexList`). -/
def parseHex? (s : String) : Option Nat := parseHexList s.data

/-- Model of the Python slice `s[:n]`. -/
def strTake (s : String) (n : Nat) : String := ⟨s.data.take n⟩

/-- Model of the Python slice `s[n:]`. -/
def strDrop (s : String) (n : Nat) : String := ⟨s.data.drop n⟩

/-- Model of the Python slice `s[-k:]` (for `k ≤ len s` it is the last `k`
characters; for shorter strings it is the whole string, as in Python). -/
def lastN (s : String) (k : Nat) : String := ⟨s.data.drop (s.data.length - k)⟩

/-- Model of Python `s.lower()` on the ASCII strings used here. -/
def lowerStr (s : String) : String := ⟨s.data.map Char.toLower⟩

/-- Model of Python `s.startswith(p)`, stated on the character lists so
that concrete instances reduce inside the kernel. -/
def strStartsWith (s p : String) : Bool := p.data.isPrefixOf s.data

/-- Lowercase hex digit character for a value below 16, as produced by
Python `"%x"` formatting. -/
def hexDigitChar (d : Nat) : Char :=
  if d < 10 then Char.ofNat (48 + d) else Char.ofNat (87 + d)

/-- Helper for `natToHexRev`: structural recursion on fuel so concrete
instances reduce inside the kernel. -/
def natToHexRevAux : Nat → Nat → List Char
  | 0, _ => []
  | fuel + 1, n => if n = 0 then [] else hexDigitChar (n % 16) :: natToHexRevAux fuel (n / 16)

/-- Hex digits of `n`, least significant first (empty for 0). -/
def natToHexRev (n : Nat) : List Char := natToHexRevAux n n

/-- Model of Python `f"{n:0{w}x}"`: lowercase hex, zero-padded on the left
to width `w` (longer when the numeral needs more digits). -/
def hexPad (w n : Nat) : String :=
  let ds := if n = 0 then ['0'] else (natToHexRev n).reverse
  ⟨List.replicate (w - ds.length) '0' ++ ds⟩

/-- A pixel of a BGR image, one `Nat` per 8-bit channel. -/
structure BGRPix where
  b : Nat
  g : Nat
  r : Nat
deriving DecidableEq

/-- An in-memory BGR image: dimensions plus pixel lookup (row, column).
`Option Img` models a possibly-`None` numpy array; a zero dimension models
`img.size == 0`. -/
structure Img where
  h : Nat
  w : Nat
  pix : Nat → Nat → BGRPix

/-- Grayscale conversion of one pixel, modelling `cv2.cvtColor(_,
COLOR_BGR2GRAY)`: `round(0.299 R + 0.587 G + 0.114 B)` stored as a byte.
Rounding is modelled as round-half-up; no property proved below depends on
tie behaviour. -/
def grayU8 (p : BGRPix) : Nat :=
  (round ((299 * p.r + 587 * p.g + 114 * p.b : ℚ) / 1000)).toNat

/-- HSV conversion of one pixel in OpenCV 8-bit convention
(`cv2.cvtColor(_, COLOR_BGR2HSV)`): hue in half-degrees 0–180, saturation
and value 0–255. -/
def hsvU8 (p : BGRPix) : Nat × Nat × Nat :=
  let v := max p.r (max p.g p.b)
  let mn := min p.r (min p.g p.b)
  let d := v - mn
  let s : Nat := if v = 0 then 0 else (round ((255 * d : ℚ) / v)).toNat
  let hq : ℚ :=
    if d = 0 then 0
    else if v = p.r then 60 * ((p.g : ℚ) - p.b) / d
    else if v = p.g then 120 + 60 * ((p.b : ℚ) - p.r) / d
    else 240 + 60 * ((p.r : ℚ) - p.g) / d
  let hq2 := if hq < 0 then hq + 360 else hq
  ((round (hq2 / 2)).toNat, s, v)

/-- Length of the overlap of the unit cell `[k, k+1)` with `[lo, hi)`; the
building block of area-interpolated resizing. -/
def overlap (lo hi : ℚ) (k : Nat) : ℚ :=
  max 0 (min ((k : ℚ) + 1) hi - max (k : ℚ) lo)

/-- Area average of the source cell corresponding to target pixel `(i, j)`
when resizing an `H × W` image to `Ht × Wt`, modelling the area averaging
of `cv2.resize(_, interpolation=INTER_AREA)`. -/
def cellAvg (src : Nat → Nat → ℚ) (H W Ht Wt i j : Nat) : ℚ :=
  let top : ℚ := (i * H : ℚ) / Ht
  let bot : ℚ := ((i + 1) * H : ℚ) / Ht
  let left : ℚ := (j * W : ℚ) / Wt
  let right : ℚ := ((j + 1) * W : ℚ) / Wt
  let total :=
    ((List.range H).map fun y =>
      ((List.range W).map fun x =>
        overlap top bot y * overlap left right x * src y x).sum).sum
  total / ((bot - top) * (right - left))

/-- INTER_AREA resize of an `H × W` matrix to `Ht × Wt`, with the result
saturated to a byte as in the uint8 pipeline of the source. -/
def resizeAreaU8 (src : Nat → Nat → ℚ) (H W Ht Wt : Nat) : Nat → Nat → Nat :=
  fun i j => min 255 (round (cellAvg src H W Ht Wt i j)).toNat

/-- Row-major flattening of an `rows × cols` grid of bits, the order in
which numpy `flatten()` walks the hash grids. -/
def bitsOfGrid (rows cols : Nat) (bit : Nat → Nat → Bool) : List Bool :=
  ((List.range rows).map fun y => (List.range cols).map fun x => bit y x).flatten

/-- Packing of a bit list into a `Nat`, modelling the source loop
`val = (val << 1) | int(b)` (most significant bit first). -/
def packBits (l : List Bool) : Nat :=
  l.foldl (fun acc b => 2 * acc + (if b then 1 else 0)) 0

namespace utils

/-- Border-cropped image for fingerprinting: `img[1:h-1, 1:w-1]` when both
dimensions exceed 4, otherwise the image unchanged
(src/collector/utils.py, `compute_thumbnail_hash`). -/
def croppedOf (img : Img) : Img :=
  if 4 < img.h ∧ 4 < img.w then
    ⟨img.h - 2, img.w - 2, fun y x => img.pix (y + 1) (x + 1)⟩
  else img

/-- Grayscale byte matrix of an image, as rationals for averaging. -/
def grayMat (img : Img) : Nat → Nat → ℚ :=
  fun y x => (grayU8 (img.pix y x) : ℚ)

/-- The 8x8 downscale used by the average hash. -/
def aSmall (img : Img) : Nat → Nat → Nat :=
  resizeAreaU8 (grayMat img) img.h img.w 8 8

/-- Mean intensity of the 8x8 downscale (`a_small.mean()`; the float mean
of 64 bytes is exact, so `ℚ` is a faithful model). -/
def aAvg (img : Img) : ℚ :=
  (((List.range 8).map fun y =>
    ((List.range 8).map fun x => aSmall img y x).sum).sum : ℚ) / 64

/-- The packed 64-bit average hash (`a_val` in the source). -/
def aVal (img : Img) : Nat :=
  packBits (bitsOfGrid 8 8 fun y x => decide ((aSmall img y x : ℚ) > aAvg img))

/-- The 9-wide, 8-tall downscale used by the gradient hash
(`cv2.resize(gray, (9, 8))` takes width first). -/
def dSmall (img : Img) : Nat → Nat → Nat :=
  resizeAreaU8 (grayMat img) img.h img.w 8 9

/-- The packed 64-bit gradient hash (`d_val` in the source):
bit `(y, x)` is `d_small[y, x+1] > d_small[y, x]`. -/
def dVal (img : Img) : Nat :=
  packBits (bitsOfGrid 8 8 fun y x => decide (dSmall img y (x + 1) > dSmall img y x))

/-- Row-major list of the HSV triples of all pixels of an image. -/
def hsvList (img : Img) : List (Nat × Nat × Nat) :=
  ((List.range img.h).map fun y =>
    (List.range img.w).map fun x => hsvU8 (img.pix y x)).flatten

/-- Saturation-priority pixel selection shared by the fingerprint HSV
summary and the color signature: the pixels with saturation at least 60
when any exist, otherwise all pixels. -/
def satSel (l : List (Nat × Nat × Nat)) : List (Nat × Nat × Nat) :=
  let m := l.filter fun t => 60 ≤ t.2.1
  if m = [] then l else m

/-- Mean of a list of rationals (0 for the empty list, matching the total
division of `ℚ`; all uses are on nonempty lists). -/
def meanQ (l : List ℚ) : ℚ := l.sum / l.length

/-- Model of `np.clip(x, 0, 255)`. -/
def clip255 (x : ℚ) : ℚ := min 255 (max 0 x)

/-- The three bytes of the HSV summary of `compute_thumbnail_hash`:
hue mean rescaled from 0–180 to 0–255, saturation mean, value mean, each
clipped to `[0, 255]` and rounded (`int(round(np.clip(..)))`). -/
def hsvMeans (img : Img) : Nat × Nat × Nat :=
  let sel := satSel (hsvList img)
  let hm := (round (clip255 (meanQ (sel.map fun t => (t.1 : ℚ)) * (255 / 180)))).toNat
  let sm := (round (clip255 (meanQ (sel.map fun t => (t.2.1 : ℚ))))).toNat
  let vm := (round (clip255 (meanQ (sel.map fun t => (t.2.2 : ℚ))))).toNat
  (hm, sm, vm)

/-- Embedding of `utils.compute_thumbnail_hash` (src/collector/utils.py):
the 38-hex-character perceptual fingerprint — 16 hex digits of average
hash, 16 of gradient hash, 6 of HSV summary — or `""` on a `None` or
zero-sized image.  The HSV summary is computed on the border-cropped
image, as in the source (which reassigns `img_bgr` before converting). -/
def compute_thumbnail_hash (img? : Option Img) : String :=
  match img? with
  | none => ""
  | some img0 =>
    if img0.h = 0 ∨ img0.w = 0 then ""
    else
      let img := croppedOf img0
      let ms := hsvMeans img
      hexPad 16 (aVal img) ++ hexPad 16 (dVal img) ++
        hexPad 2 ms.1 ++ hexPad 2 ms.2.1 ++ hexPad 2 ms.2.2

/-- The color signature record of `utils.compute_color_signature`. -/
structure ColorSig where
  h_mean : ℚ
  s_mean : ℚ
  v_mean : ℚ
  h_bin : Int
deriving DecidableEq

/-- Embedding of `utils.compute_color_signature` (src/collector/utils.py):
mean HSV over the saturation-priority selection of the (uncropped) image
and the quantized hue bin `int(h_mean // 15) % 12`; all zeros on a `None`
or zero-sized image. -/
def compute_color_signature (img? : Option Img) : ColorSig :=
  match img? with
  | none => ⟨0, 0, 0, 0⟩
  | some img =>
    if img.h = 0 ∨ img.w = 0 then ⟨0, 0, 0, 0⟩
    else
      let sel := satSel (hsvList img)
      let hm := meanQ (sel.map fun t => (t.1 : ℚ))
      let sm := meanQ (sel.map fun t => (t.2.1 : ℚ))
      let vm := meanQ (sel.map fun t => (t.2.2 : ℚ))
      ⟨hm, sm, vm, ⌊hm / 15⌋ % 12⟩

/-- Embedding of `utils.hamming_distance_hex` (src/collector/utils.py):
bitwise Hamming distance between two hex strings compared on their
min-length prefixes; `None` when either string is empty or a compared
prefix fails to parse as hex (the `except` branch). -/
def hamming_distance_hex (a b : String) : Option Nat :=
  if a = "" ∨ b = "" then none
  else
    let n := min a.length b.length
    if n = 0 then none
    else
      match parseHex? (strTake a n), parseHex? (strTake b n) with
      | some va, some vb => some (popcount (va ^^^ vb))
      | _, _ => none

/-- Embedding of `utils.hue_bin_distance` (src/collector/utils.py):
cyclic distance between hue bins, computed on residues modulo `bins`
(Python `%` on a positive modulus agrees with `Int.emod`). -/
def hue_bin_distance (a b : Int) (bins : Int) : Int :=
  let d := |a % bins - b % bins|
  min d (bins - d)

end utils

namespace main

/-- Value of the hex pair `i` (0, 1 or 2) of the last-6-character HSV
suffix of a stem: `int(s[-6:][2i:2i+2], 16)`
(src/collector/main.py, `continuous_capture`). -/
def hsvPair? (s : String) (i : Nat) : Option Nat :=
  parseHex? (strTake (strDrop (lastN s 6) (2 * i)) 2)

/-- The HSV-suffix gate shared by the two matching tiers of
`continuous_capture`: when both strings are composite (at least 22
characters), the hue and saturation bytes of the last-6-hex suffixes must
be within `hTol` and `sTol`; if any of the six pair parses fails, the
`except` branch sets the gate to pass (`hsv_ok = True`), and shorter
strings pass unconditionally. -/
def hsvOkWith (hTol sTol : Int) (a b : String) : Bool :=
  if 22 ≤ a.length ∧ 22 ≤ b.length then
    match hsvPair? a 0, hsvPair? a 1, hsvPair? a 2,
          hsvPair? b 0, hsvPair? b 1, hsvPair? b 2 with
    | some ha, some sa, some _, some hb, some sb, some _ =>
      decide (|(ha : Int) - hb| ≤ hTol) && decide (|(sa : Int) - sb| ≤ sTol)
    | _, _, _, _, _, _ => true
  else true

/-- Acceptance test of the filename-reuse tier of `continuous_capture`:
the stem is reused when `hamming_distance_hex` returns a distance at most
4 (a `None` distance is skipped) and the strict HSV-suffix gate
(tolerances 15 and 40) passes. -/
def tier2Accepts (fresh stem : String) : Bool :=
  match utils.hamming_distance_hex fresh stem with
  | none => false
  | some dist => decide (dist ≤ 4) && hsvOkWith 15 40 fresh stem

/-- The filename-reuse tier of `continuous_capture`: scan the existing
stems in listing order and return the first accepted one as the chosen
hash (the loop breaks on the first match); the fresh hash when none is
accepted. -/
def tier2Scan (fresh : String) (stems : List String) : String :=
  match stems.find? (tier2Accepts fresh) with
  | some stem => stem
  | none => fresh

/-- Candidate filter of the visual-fallback tier of `continuous_capture`:
distance at most 12 and the relaxed HSV-suffix gate (tolerances 25
and 60). -/
def tier3CandidateOk (fresh stem : String) : Bool :=
  match utils.hamming_distance_hex fresh stem with
  | none => false
  | some dist => decide (dist ≤ 12) && hsvOkWith 25 60 fresh stem

/-- The parameter names of `utils.are_images_similar`
(src/collector/utils.py, line 246). -/
def areImagesSimilarParams : List String :=
  ["img_a_bgr", "img_b_bgr", "gray_rmse_threshold", "hue_rmse_threshold",
   "sat_mask_threshold", "masked_gray_rmse_threshold"]

/-- Model of a Python call to `are_images_similar` that passes the extra
keyword arguments `kws`: per Python call semantics, when a keyword does
not name a parameter of the callee the call raises `TypeError` (modelled
as `Except.error`) before the function body runs; otherwise the call
returns the comparison verdict `res`. -/
def callAreImagesSimilar (kws : List String) (res : Bool) : Except Unit Bool :=
  if kws.all (fun k => areImagesSimilarParams.contains k) then .ok res else .error ()

/-- The candidate loop of the visual-fallback tier of `continuous_capture`
(src/collector/main.py, lines 392–398): each iteration evaluates
`are_images_similar(thumb_img, cand_img, rmse_threshold=10.0)` inside
`try/except: continue`; `sim stem` is the verdict the comparison would
produce if the call were reached.  A raised call skips the candidate; a
`True` verdict would choose the stem and break. -/
def tier3Loop (fresh : String) (sim : String → Bool) : List String → String
  | [] => fresh
  | stem :: rest =>
    match callAreImagesSimilar ["rmse_threshold"] (sim stem) with
    | .error _ => tier3Loop fresh sim rest
    | .ok true => stem
    | .ok false => tier3Loop fresh sim rest

/-- The visual-fallback tier of `continuous_capture`: filter the stems to
the near candidates and run the comparison loop on at most the first 40
of them. -/
def tier3Scan (fresh : String) (stems : List String) (sim : String → Bool) : String :=
  tier3Loop fresh sim ((stems.filter (tier3CandidateOk fresh)).take 40)

/-- Composition of the two matching tiers as in `continuous_capture`: the
visual-fallback tier runs only when the filename-reuse tier left
`chosen_hash == thumb_hash` and the listing is nonempty. -/
def resolveChosenHash (fresh : String) (stems : List String) (sim : String → Bool) : String :=
  let afterTier2 := tier2Scan fresh stems
  if afterTier2 = fresh ∧ stems ≠ [] then tier3Scan fresh stems sim else afterTier2

/-- The per-identity record of the running session index
`collected_items`: last recorded price, fingerprint stem (possibly empty)
and color-signature hue bin. -/
structure SessionEntry where
  price : Int
  thumbHash : String
  hbin : Int
deriving DecidableEq

/-- Acceptance test of the identity-key disambiguation of
`continuous_capture` (src/collector/main.py, lines 420–433): an existing
candidate is the same identity when its recorded price equals the new
price, or its recorded fingerprint is within Hamming distance 8 of the
chosen hash (both being nonempty) and the hue-bin distance of the color
signatures is at most 1.  Prices are integers, so the float equality of
the source is exact. -/
def acceptCandidate (newPrice : Int) (chosenHash : String) (srcBin : Int)
    (e : SessionEntry) : Bool :=
  decide (e.price = newPrice) ||
    (match (if chosenHash ≠ "" ∧ e.thumbHash ≠ "" then
              utils.hamming_distance_hex chosenHash e.thumbHash
            else none) with
     | none => false
     | some dist => decide (dist ≤ 8) && decide (utils.hue_bin_distance srcBin e.hbin 12 ≤ 1))

/-- The identity-key assignment of `continuous_capture`
(src/collector/main.py, lines 414–441): among session keys starting with
the `category:cleanName` string — the passed `keyPre` — the first
acceptable candidate (in insertion order) wins; with no sharing key the
bare `keyPre` is used; with sharing keys but no acceptable one a new key
is minted as `keyPre # chosenHash`, falling back to a time-derived suffix
(passed in as `timeSuffix`) when the chosen hash is empty. -/
def resolveIdentityKey (keyPre : String) (index : List (String × SessionEntry))
    (newPrice : Int) (chosenHash : String) (srcBin : Int) (timeSuffix : String) : String :=
  if (index.filter fun kv => strStartsWith kv.1 keyPre) = [] then keyPre
  else
    match (index.filter fun kv => strStartsWith kv.1 keyPre).find?
        (fun kv => acceptCandidate newPrice chosenHash srcBin kv.2) with
    | some kv => kv.1
    | none => keyPre ++ "#" ++ (if chosenHash ≠ "" then chosenHash else timeSuffix)

end main

namespace cleanup

/-- Embedding of `cleanup_thumbs.hamming_distance_hex`
(src/collector/cleanup_thumbs.py): unlike the `utils` variant it is total,
returning 64 (the max for a 64-bit hash) when the common prefix is empty
or fails to parse as hex. -/
def hamming_distance_hex (a b : String) : Nat :=
  let n := min a.length b.length
  if n = 0 then 64
  else
    match parseHex? (strTake a n), parseHex? (strTake b n) with
    | some va, some vb => popcount (va ^^^ vb)
    | _, _ => 64

/-- A stored thumbnail file as the reconciler sees it: its filename
(always of the form `<stem>.png`, from `glob("*.png")`) and its
modification time. -/
structure TFile where
  name : String
  mtime : Int
deriving DecidableEq

/-- The filename stem, modelling `Path.stem` on the `*.png` names the
reconciler lists: drop the four characters of the extension, except that
the lone dotfile name `.png` has no suffix to strip and is its own
stem. -/
def stemOf (n : String) : String :=
  if n.data.length ≤ 4 then n else ⟨n.data.take (n.data.length - 4)⟩

/-- Lowercased stem of a file, the value `f.stem.lower()` used for
grouping in `group_similar_hashes`. -/
def stemL (f : TFile) : String := lowerStr (stemOf f.name)

/-- Try to place a file into the first existing group whose representative
stem is within the threshold; `none` when no group accepts it
(the inner loop of `group_similar_hashes`). -/
def placeFile (t : Nat) (st : String) (f : TFile) :
    List (List TFile × String) → Option (List (List TFile × String))
  | [] => none
  | (g, rep) :: rest =>
    if hamming_distance_hex st rep ≤ t then some ((g ++ [f], rep) :: rest)
    else
      match placeFile t st f rest with
      | some rest2 => some ((g, rep) :: rest2)
      | none => none

/-- One step of greedy grouping: place the file in the first matching
group, else start a new group with the file's lowercased stem as
representative (appended at the end, preserving formation order). -/
def groupStep (t : Nat) (s : List (List TFile × String)) (f : TFile) :
    List (List TFile × String) :=
  match placeFile t (stemL f) f s with
  | some s2 => s2
  | none => s ++ [([f], stemL f)]

/-- Embedding of `cleanup_thumbs.group_similar_hashes`: greedy single-link
grouping of the listed files against group representatives.  The input
list is the name-sorted directory listing (`sorted(thumbs_dir.glob(..))`
in `cleanup_thumbs.main`). -/
def group_similar_hashes (files : List TFile) (t : Nat) : List (List TFile) :=
  (files.foldl (groupStep t) []).map Prod.fst

/-- Stable insertion of a file into a list sorted by ascending mtime; an
incoming file goes after every earlier file with the same mtime only if
strictly smaller keys precede it, i.e. before the first strictly later
file and after equal ones seen so far — matching the stability of Python
`sorted`. -/
def insertByMtime (f : TFile) : List TFile → List TFile
  | [] => [f]
  | g :: gs => if f.mtime ≤ g.mtime then f :: g :: gs else g :: insertByMtime f gs

/-- Stable sort by mtime.  A stable sort's output is uniquely determined,
so this insertion sort is a faithful model of Python
`sorted(group, key=mtime)`. -/
def sortByMtime : List TFile → List TFile
  | [] => []
  | f :: fs => insertByMtime f (sortByMtime fs)

/-- Embedding of `cleanup_thumbs.choose_canonical`: the head of the
mtime-sorted group (`sorted(group, key=mtime)[0]`); `none` only on an
empty group, which the caller never passes. -/
def choose_canonical (g : List TFile) : Option TFile := (sortByMtime g).head?

/-- The rename map built by `cleanup_thumbs.main`: singleton groups map
their filename to itself; members of larger groups map to the canonical
member's filename.  Represented as an association list in insertion
order. -/
def mappingOfGroups (groups : List (List TFile)) : List (String × String) :=
  groups.foldl
    (fun acc g =>
      match g with
      | [f] => acc ++ [(f.name, f.name)]
      | _ =>
        match choose_canonical g with
        | none => acc
        | some c => acc ++ g.map fun f => (f.name, c.name))
    []

/-- The deletion list built by `cleanup_thumbs.main`: every non-canonical
member of every multi-member group. -/
def deleteList (groups : List (List TFile)) : List TFile :=
  groups.foldl
    (fun acc g =>
      if g.length ≤ 1 then acc
      else
        match choose_canonical g with
        | none => acc
        | some c => acc ++ g.filter fun f => f ≠ c)
    []

/-- Dictionary lookup in the rename map.  The source builds a Python dict,
where a later assignment to the same key wins, hence the reversed
search. -/
def lookupMap (m : List (String × String)) (k : String) : Option String :=
  (m.reverse.find? fun p => p.1 = k).map Prod.snd

/-- An item entry of a snapshot file, with the two historical thumbnail
reference forms as optional fields. -/
structure SnapItem where
  itemName : String
  price : Int
  thumbHash : Option String
  thumbPath : Option String
deriving DecidableEq

/-- A snapshot file: categories mapped to their item entries. -/
structure Snapshot where
  categories : List (String × List SnapItem)
deriving DecidableEq

/-- Model of Python `rel.replace("\\", "/")`. -/
def normSlashes (s : String) : String :=
  ⟨s.data.map fun c => if c = '\\' then '/' else c⟩

/-- Embedding of the per-item rewrite inside
`cleanup_thumbs.update_snapshots`: only entries with a nonempty
`thumbPath` of the normalized form `thumbs/<fname>` are considered; when
`<fname>` is a key of the rename map bound to a different name, the path
is rewritten and the item is flagged as modified. -/
def updateItem (m : List (String × String)) (it : SnapItem) : SnapItem × Bool :=
  match it.thumbPath with
  | none => (it, false)
  | some rel =>
    if rel = "" then (it, false)
    else
      let relNorm := normSlashes rel
      if strStartsWith relNorm "thumbs/" then
        let fname := strDrop relNorm 7
        match lookupMap m fname with
        | some newName =>
          if newName ≠ fname then
            ({ it with thumbPath := some ("thumbs/" ++ newName) }, true)
          else (it, false)
        | none => (it, false)
      else (it, false)

/-- Rewrite of one snapshot: all items of all categories, with a flag
telling whether any entry was modified. -/
def updateSnapshot (m : List (String × String)) (s : Snapshot) : Snapshot × Bool :=
  (⟨s.categories.map fun cat =>
      (cat.1, cat.2.map fun it => (updateItem m it).1)⟩,
   s.categories.any fun cat => cat.2.any fun it => (updateItem m it).2)

/-- Embedding of `cleanup_thumbs.update_snapshots`: the rewritten corpus
(persisted only when `apply` is true — a dry run leaves the files as they
were) and the count of snapshots with at least one rewritten entry. -/
def update_snapshots (m : List (String × String)) (snaps : List Snapshot)
    (apply : Bool) : List Snapshot × Nat :=
  ((snaps.map fun s => if apply then (updateSnapshot m s).1 else s),
   (snaps.filter fun s => (updateSnapshot m s).2).length)

/-- The observable outcome of one reconciliation pass
(`cleanup_thumbs.main`). -/
structure ReconcileResult where
  groups : List (List TFile)
  mapping : List (String × String)
  toDelete : List TFile
  snapsAfter : List Snapshot
  changed : Nat
  survivors : List TFile
deriving DecidableEq

/-- Embedding of the orchestration in `cleanup_thumbs.main`: group the
name-sorted listing, build the rename map, rewrite snapshots, and (when
`apply` is true) delete every non-canonical member; `survivors` is the
directory content after the pass, in unchanged listing order. -/
def reconcile (files : List TFile) (snaps : List Snapshot) (t : Nat)
    (apply : Bool) : ReconcileResult :=
  let groups := group_similar_hashes files t
  let m := mappingOfGroups groups
  let dels := deleteList groups
  let z := update_snapshots m snaps apply
  ⟨groups, m, dels, z.1, z.2,
   if apply then files.filter (fun f => f ∉ dels) else files⟩

end cleanup

/-! ### Specification-side conditions, concrete inputs, and auxiliary
definitions used by the theorems -/

/-- A nonempty string of hex digits — the shape of every fingerprint and
of every stored stem the resolver compares. -/
def IsHexStr (s : String) : Prop :=
  s ≠ "" ∧ ∀ c ∈ s.data, isHexDigitB c = true

instance (s : String) : Decidable (IsHexStr s) :=
  inferInstanceAs (Decidable (s ≠ "" ∧ ∀ c ∈ s.data, isHexDigitB c = true))

/-- The last-6-hex hue byte of a composite fingerprint, as the
specification reads it (`int(s[-6:][0:2], 16)`). -/
def specSuffixHue (s : String) : Int := (((main.hsvPair? s 0).getD 0 : Nat) : Int)

/-- The last-6-hex saturation byte of a composite fingerprint
(`int(s[-6:][2:4], 16)`). -/
def specSuffixSat (s : String) : Int := (((main.hsvPair? s 1).getD 0 : Nat) : Int)

/-- The filename-reuse acceptance condition exactly as the specification
words it: Hamming distance at most 4, and — whenever both strings are
composite (at least 22 hex characters) — hue suffixes within 15 and
saturation suffixes within 40. -/
def specTier2Cond (fresh stem : String) : Prop :=
  (∃ d, utils.hamming_distance_hex fresh stem = some d ∧ d ≤ 4) ∧
  (22 ≤ fresh.length → 22 ≤ stem.length →
    |specSuffixHue fresh - specSuffixHue stem| ≤ 15 ∧
    |specSuffixSat fresh - specSuffixSat stem| ≤ 40)

/-- The disambiguation acceptance condition exactly as the specification
words it: same recorded price, or recorded fingerprint within Hamming
distance 8 of the chosen hash (both present) with hue bins at distance at
most 1. -/
def specAcceptCond (newPrice : Int) (chosenHash : String) (srcBin : Int)
    (e : main.SessionEntry) : Prop :=
  e.price = newPrice ∨
  ∃ d, chosenHash ≠ "" ∧ e.thumbHash ≠ "" ∧
    utils.hamming_distance_hex chosenHash e.thumbHash = some d ∧ d ≤ 8 ∧
    utils.hue_bin_distance srcBin e.hbin 12 ≤ 1

/-- The symmetric far-apart relation between two grouping-state pairs:
neither representative is within the threshold of the other. -/
def farPairs (t : Nat) (p q : List cleanup.TFile × String) : Prop :=
  ¬ (cleanup.hamming_distance_hex p.2 q.2 ≤ t) ∧
  ¬ (cleanup.hamming_distance_hex q.2 p.2 ≤ t)

/-! ### Concrete inputs used by counterexamples and witnesses -/

/-- A 38-character all-zero fingerprint string. -/
def hash38A : String := "00000000000000000000000000000000000000"

/-- A 38-character fingerprint string at Hamming distance 1 from
`hash38A` with an identical HSV suffix. -/
def hash38B : String := "10000000000000000000000000000000000000"

/-- A rename map sending `aa.png` to `bb.png`. -/
def mapAA : List (String × String) := [("aa.png", "bb.png")]

/-- A snapshot whose single entry references its thumbnail only through a
bare `thumbHash` stem. -/
def snapHashOnly : cleanup.Snapshot :=
  ⟨[("Helmet", [⟨"Aviator Helmet", 15000, some "aa", none⟩])]⟩

/-- A snapshot whose single entry references its thumbnail through a
`thumbPath` of the historical `thumbs/<stem>.png` form. -/
def snapPathOnly : cleanup.Snapshot :=
  ⟨[("Helmet", [⟨"Aviator Helmet", 15000, some "aa", some "thumbs/aa.png"⟩])]⟩

/-! ### C6 helper: the earliest minimum of a file list -/

/-- The earliest-listed file attaining the minimal mtime, the value the
specification says `choose_canonical` picks.  Defined independently of the
sort so the two can be compared. -/
def firstMin : List cleanup.TFile → Option cleanup.TFile
  | [] => none
  | f :: fs =>
    match firstMin fs with
    | none => some f
    | some m => some (if f.mtime ≤ m.mtime then f else m)

/-! ### Helper lemmas -/

lemma hamming_none_of_empty (a b : String) (h : a = "" ∨ b = "") :
    utils.hamming_distance_hex a b = none := by
  unfold utils.hamming_distance_hex
  rw [if_pos h]

lemma hamming_none_of_parse_fail (a b : String)
    (h : parseHex? (strTake a (min a.length b.length)) = none ∨
         parseHex? (strTake b (min a.length b.length)) = none) :
    utils.hamming_distance_hex a b = none := by
  unfold utils.hamming_distance_hex
  by_cases he : a = "" ∨ b = ""
  · rw [if_pos he]
  · rw [if_neg he]
    simp only
    by_cases hn : min a.length b.length = 0
    · rw [if_pos hn]
    · rw [if_neg hn]
      rcases h with h | h
      · rw [h]
      · rw [h]
        cases parseHex? (strTake a (min a.length b.length)) <;> rfl

lemma cleanup_hamming_64_of_empty (a b : String) (h : a = "" ∨ b = "") :
    cleanup.hamming_distance_hex a b = 64 := by
  unfold cleanup.hamming_distance_hex
  have hn : min a.length b.length = 0 := by
    have h0 : ("" : String).length = 0 := rfl
    rcases h with h | h <;> subst h <;> rw [h0] <;> omega
  simp only
  rw [if_pos hn]

lemma cleanup_hamming_64_of_parse_fail (a b : String)
    (h : parseHex? (strTake a (min a.length b.length)) = none ∨
         parseHex? (strTake b (min a.length b.length)) = none) :
    cleanup.hamming_distance_hex a b = 64 := by
  unfold cleanup.hamming_distance_hex
  simp only
  by_cases hn : min a.length b.length = 0
  · rw [if_pos hn]
  · rw [if_neg hn]
    rcases h with h | h
    · rw [h]
    · rw [h]
      cases parseHex? (strTake a (min a.length b.length)) <;> rfl

/-! ### C9 -/

/-- C9: `hue_bin_distance` is the circular distance on hue bins: on the
residues modulo 12 it equals `min(|a-b|, 12-|a-b|)`, and in particular
`hue_bin_distance(0, 11, 12) = 1` and `hue_bin_distance(0, 6, 12) = 6`. -/
theorem hue_bin_distance_circular :
    (∀ a b : Int,
      utils.hue_bin_distance a b 12 =
        min |a % 12 - b % 12| (12 - |a % 12 - b % 12|)) ∧
    utils.hue_bin_distance 0 11 12 = 1 ∧
    utils.hue_bin_distance 0 6 12 = 6 :=
  ⟨fun _ _ => rfl, by decide, by decide⟩

/-! ### C8 -/

/-- C8 counterexample: the claim says `hammingDistance` is null whenever
either argument is not valid hex, but on the pair `("az", "a")` — where
`"az"` is not a valid hex string — the source compares the one-character
common bytes and returns the number 0, not null. -/
theorem utils_hamming_invalid_cx :
    utils.hamming_distance_hex "az" "a" = some 0 ∧ isHexDigitB 'z' = false := by
  decide

/-- C8 (amended): fingerprinting a `None` or zero-sized image yields `""`;
the color signature of a `None` or zero-sized image is all zeros; and
`hamming_distance_hex` returns `none` whenever either argument is empty
(in particular on `("", "abc")`) or a compared min-length hex-digit
sequence fails to parse — a non-hex character beyond the compared bytes
does not cause `none`. -/
theorem fail_soft_degenerate :
    utils.compute_thumbnail_hash none = "" ∧
    (∀ img : Img, img.h = 0 ∨ img.w = 0 →
      utils.compute_thumbnail_hash (some img) = "") ∧
    utils.compute_color_signature none = ⟨0, 0, 0, 0⟩ ∧
    (∀ img : Img, img.h = 0 ∨ img.w = 0 →
      utils.compute_color_signature (some img) = ⟨0, 0, 0, 0⟩) ∧
    utils.hamming_distance_hex "" "abc" = none ∧
    (∀ a b : String, a = "" ∨ b = "" → utils.hamming_distance_hex a b = none) ∧
    (∀ a b : String,
      parseHex? (strTake a (min a.length b.length)) = none ∨
      parseHex? (strTake b (min a.length b.length)) = none →
      utils.hamming_distance_hex a b = none) := by
  refine ⟨rfl, ?_, rfl, ?_, ?_, hamming_none_of_empty, hamming_none_of_parse_fail⟩
  · intro img h
    exact if_pos h
  · intro img h
    exact if_pos h
  · exact hamming_none_of_empty _ _ (Or.inl rfl)

/-- C8 witness: the degenerate-input clauses of `fail_soft_degenerate`
applied to a concrete zero-height image. -/
theorem fail_soft_degenerate_witness :
    ((⟨0, 5, fun _ _ => ⟨0, 0, 0⟩⟩ : Img).h = 0 ∨
      (⟨0, 5, fun _ _ => ⟨0, 0, 0⟩⟩ : Img).w = 0) ∧
    utils.compute_thumbnail_hash (some ⟨0, 5, fun _ _ => ⟨0, 0, 0⟩⟩) = "" ∧
    utils.compute_color_signature (some ⟨0, 5, fun _ _ => ⟨0, 0, 0⟩⟩) = ⟨0, 0, 0, 0⟩ :=
  ⟨Or.inl rfl,
   fail_soft_degenerate.2.1 _ (Or.inl rfl),
   fail_soft_degenerate.2.2.2.1 _ (Or.inl rfl)⟩

/-! ### C10 -/

/-- C10 counterexample: the claim says the reconciler's Hamming variant
returns 64 on any non-hex argument and that a non-hex stem always becomes
its own singleton group; but on `("az", "a")` it returns 0, and the file
`az.png` (non-hex stem `az`) joins the group of `a.png` under the default
threshold 8. -/
theorem cleanup_hamming_nonhex_cx :
    cleanup.hamming_distance_hex "az" "a" = 0 ∧
    cleanup.group_similar_hashes [⟨"a.png", 0⟩, ⟨"az.png", 1⟩] 8 =
      [[⟨"a.png", 0⟩, ⟨"az.png", 1⟩]] := by
  decide

lemma placeFile_none_of_all_fail (t : Nat) (st : String) (f : cleanup.TFile)
    (s : List (List cleanup.TFile × String))
    (h : ∀ p ∈ s, ¬ (cleanup.hamming_distance_hex st p.2 ≤ t)) :
    cleanup.placeFile t st f s = none := by
  induction s with
  | nil => rfl
  | cons q rest ih =>
    obtain ⟨g, rep⟩ := q
    have hq := h (g, rep) (List.mem_cons_self _ _)
    unfold cleanup.placeFile
    rw [if_neg hq, ih fun p hp => h p (List.mem_cons_of_mem _ hp)]

lemma placeFile_some_reps (t : Nat) (st : String) (f : cleanup.TFile) :
    ∀ (s s2 : List (List cleanup.TFile × String)),
      cleanup.placeFile t st f s = some s2 → ∀ p ∈ s2, ∃ q ∈ s, p.2 = q.2 := by
  intro s
  induction s with
  | nil => intro s2 h; exact absurd h (by simp [cleanup.placeFile])
  | cons q rest ih =>
    obtain ⟨g, rep⟩ := q
    intro s2 h p hp
    unfold cleanup.placeFile at h
    by_cases hd : cleanup.hamming_distance_hex st rep ≤ t
    · rw [if_pos hd] at h
      injection h with h
      subst h
      rcases List.mem_cons.mp hp with h | h
      · exact ⟨(g, rep), List.mem_cons_self _ _, by rw [h]⟩
      · exact ⟨p, List.mem_cons_of_mem _ h, rfl⟩
    · rw [if_neg hd] at h
      cases hrec : cleanup.placeFile t st f rest with
      | none => rw [hrec] at h; exact absurd h (by simp)
      | some rest2 =>
        rw [hrec] at h
        injection h with h
        subst h
        rcases List.mem_cons.mp hp with h | h
        · exact ⟨(g, rep), List.mem_cons_self _ _, by rw [h]⟩
        · obtain ⟨q', hq', hpq⟩ := ih rest2 hrec p h
          exact ⟨q', List.mem_cons_of_mem _ hq', hpq⟩

lemma placeFile_preserves_fail (t : Nat) (st : String) (f : cleanup.TFile) :
    ∀ (s s2 : List (List cleanup.TFile × String))
      (p : List cleanup.TFile × String),
      cleanup.placeFile t st f s = some s2 → p ∈ s →
      ¬ (cleanup.hamming_distance_hex st p.2 ≤ t) → p ∈ s2 := by
  intro s
  induction s with
  | nil => intro s2 p _ hp; exact absurd hp (by simp)
  | cons q rest ih =>
    obtain ⟨g, rep⟩ := q
    intro s2 p h hp hfail
    unfold cleanup.placeFile at h
    by_cases hd : cleanup.hamming_distance_hex st rep ≤ t
    · rw [if_pos hd] at h
      injection h with h
      subst h
      rcases List.mem_cons.mp hp with hpe | hpm
      · exact absurd hd (by rw [hpe] at hfail; exact hfail)
      · exact List.mem_cons_of_mem _ hpm
    · rw [if_neg hd] at h
      cases hrec : cleanup.placeFile t st f rest with
      | none => rw [hrec] at h; exact absurd h (by simp)
      | some rest2 =>
        rw [hrec] at h
        injection h with h
        subst h
        rcases List.mem_cons.mp hp with hpe | hpm
        · exact hpe ▸ List.mem_cons_self _ _
        · exact List.mem_cons_of_mem _ (ih rest2 p hrec hpm hfail)

lemma groupStep_reps (t : Nat) (s : List (List cleanup.TFile × String))
    (f : cleanup.TFile) :
    ∀ p ∈ cleanup.groupStep t s f, p.2 = cleanup.stemL f ∨ ∃ q ∈ s, p.2 = q.2 := by
  intro p hp
  unfold cleanup.groupStep at hp
  cases hrec : cleanup.placeFile t (cleanup.stemL f) f s with
  | none =>
    rw [hrec] at hp
    rcases List.mem_append.mp hp with h | h
    · exact Or.inr ⟨p, h, rfl⟩
    · rcases List.mem_singleton.mp h with h
      exact Or.inl (by rw [h])
  | some s2 =>
    rw [hrec] at hp
    obtain ⟨q, hq, hpq⟩ := placeFile_some_reps t (cleanup.stemL f) f s s2 hrec p hp
    exact Or.inr ⟨q, hq, hpq⟩

lemma groupStep_preserves (t : Nat) (s : List (List cleanup.TFile × String))
    (f : cleanup.TFile) (p : List cleanup.TFile × String) (hp : p ∈ s)
    (hfail : ¬ (cleanup.hamming_distance_hex (cleanup.stemL f) p.2 ≤ t)) :
    p ∈ cleanup.groupStep t s f := by
  unfold cleanup.groupStep
  cases hrec : cleanup.placeFile t (cleanup.stemL f) f s with
  | none => exact List.mem_append_left _ hp
  | some s2 => exact placeFile_preserves_fail t (cleanup.stemL f) f s s2 p hrec hp hfail

lemma foldl_groupStep_reps (t : Nat) (files : List cleanup.TFile) :
    ∀ (s : List (List cleanup.TFile × String)),
      ∀ p ∈ files.foldl (cleanup.groupStep t) s,
        (∃ q ∈ s, p.2 = q.2) ∨ ∃ f ∈ files, p.2 = cleanup.stemL f := by
  induction files with
  | nil => intro s p hp; exact Or.inl ⟨p, hp, rfl⟩
  | cons f fs ih =>
    intro s p hp
    rw [List.foldl_cons] at hp
    rcases ih (cleanup.groupStep t s f) p hp with ⟨q, hq, hpq⟩ | ⟨f', hf', hpf⟩
    · rcases groupStep_reps t s f q hq with h | ⟨q', hq', hqq⟩
      · exact Or.inr ⟨f, List.mem_cons_self _ _, hpq.trans h⟩
      · exact Or.inl ⟨q', hq', hpq.trans hqq⟩
    · exact Or.inr ⟨f', List.mem_cons_of_mem _ hf', hpf⟩

lemma foldl_groupStep_preserves (t : Nat) (files : List cleanup.TFile) :
    ∀ (s : List (List cleanup.TFile × String)) (p : List cleanup.TFile × String),
      p ∈ s →
      (∀ f ∈ files, ¬ (cleanup.hamming_distance_hex (cleanup.stemL f) p.2 ≤ t)) →
      p ∈ files.foldl (cleanup.groupStep t) s := by
  induction files with
  | nil => intro s p hp _; exact hp
  | cons f fs ih =>
    intro s p hp hfail
    rw [List.foldl_cons]
    exact ih (cleanup.groupStep t s f) p
      (groupStep_preserves t s f p hp (hfail f (List.mem_cons_self _ _)))
      fun f' hf' => hfail f' (List.mem_cons_of_mem _ hf')

/-- C10 (amended): the reconciler's Hamming variant is total with failure
value 64 — it returns 64 whenever either string is empty or a compared
min-length sequence fails to parse as hex — and under a threshold below 64
a file whose stem's compared hammings against every other listed stem are
64 (in particular an empty stem, or a stem whose compared bytes are
unparsable against all others) never joins an existing group and always
forms its own singleton group. -/
theorem cleanup_hamming_total_64 :
    (∀ a b : String, a = "" ∨ b = "" → cleanup.hamming_distance_hex a b = 64) ∧
    (∀ a b : String,
      parseHex? (strTake a (min a.length b.length)) = none ∨
      parseHex? (strTake b (min a.length b.length)) = none →
      cleanup.hamming_distance_hex a b = 64) ∧
    (∀ (files : List cleanup.TFile) (t : Nat) (f : cleanup.TFile),
      t < 64 → files.Nodup → f ∈ files →
      (∀ f' ∈ files, f' ≠ f →
        cleanup.hamming_distance_hex (cleanup.stemL f) (cleanup.stemL f') = 64 ∧
        cleanup.hamming_distance_hex (cleanup.stemL f') (cleanup.stemL f) = 64) →
      [f] ∈ cleanup.group_similar_hashes files t) := by
  refine ⟨cleanup_hamming_64_of_empty, cleanup_hamming_64_of_parse_fail, ?_⟩
  intro files t f ht hnd hmem hbad
  obtain ⟨pre, post, rfl⟩ := List.append_of_mem hmem
  rw [List.nodup_append] at hnd
  have hfpre : f ∉ pre := fun hc => hnd.2.2 hc (List.mem_cons_self _ _)
  have hfpost : f ∉ post := (List.nodup_cons.mp hnd.2.1).1
  show [f] ∈ ((pre ++ f :: post).foldl (cleanup.groupStep t) []).map Prod.fst
  rw [List.foldl_append, List.foldl_cons]
  set s1 := pre.foldl (cleanup.groupStep t) [] with hs1
  have hreps : ∀ p ∈ s1, ∃ f2 ∈ pre, p.2 = cleanup.stemL f2 := by
    intro p hp
    rcases foldl_groupStep_reps t pre [] p hp with ⟨q, hq, _⟩ | h
    · exact absurd hq (List.not_mem_nil q)
    · exact h
  have hplace : cleanup.placeFile t (cleanup.stemL f) f s1 = none := by
    refine placeFile_none_of_all_fail t (cleanup.stemL f) f s1 ?_
    intro p hp
    obtain ⟨f2, hf2, hpeq⟩ := hreps p hp
    have hne : f2 ≠ f := fun hc => hfpre (hc ▸ hf2)
    have h64 := (hbad f2 (List.mem_append_left _ hf2) hne).1
    rw [hpeq, h64]
    omega
  have hstep : cleanup.groupStep t s1 f = s1 ++ [([f], cleanup.stemL f)] := by
    unfold cleanup.groupStep
    rw [hplace]
  rw [hstep]
  have hmem2 : ([f], cleanup.stemL f) ∈ s1 ++ [([f], cleanup.stemL f)] :=
    List.mem_append_right _ (List.mem_singleton.mpr rfl)
  have hfinal : ([f], cleanup.stemL f) ∈
      post.foldl (cleanup.groupStep t) (s1 ++ [([f], cleanup.stemL f)]) := by
    refine foldl_groupStep_preserves t post _ _ hmem2 ?_
    intro f' hf'
    have hne : f' ≠ f := fun hc => hfpost (hc ▸ hf')
    have h64 := (hbad f' (List.mem_append_right _ (List.mem_cons_of_mem _ hf')) hne).2
    show ¬ (cleanup.hamming_distance_hex (cleanup.stemL f') (cleanup.stemL f) ≤ t)
    rw [h64]
    omega
  exact List.mem_map_of_mem Prod.fst hfinal

/-- C10 witness: the singleton clause of `cleanup_hamming_total_64` applied
to the listing `[x.png, .png]` under the default threshold 8 — the dotfile
`.png` keeps its full name as stem (`Path.stem` strips no suffix there),
that stem parses as hex against nothing, and the file forms its own
group. -/
theorem cleanup_hamming_total_64_witness :
    ((8 : Nat) < 64 ∧ ([⟨"x.png", 0⟩, ⟨".png", 1⟩] : List cleanup.TFile).Nodup ∧
      (⟨".png", 1⟩ : cleanup.TFile) ∈ ([⟨"x.png", 0⟩, ⟨".png", 1⟩] : List cleanup.TFile)) ∧
    [(⟨".png", 1⟩ : cleanup.TFile)] ∈
      cleanup.group_similar_hashes [⟨"x.png", 0⟩, ⟨".png", 1⟩] 8 :=
  ⟨⟨by decide, by decide, by decide⟩,
   cleanup_hamming_total_64.2.2 _ 8 _ (by decide) (by decide) (by decide) (by decide)⟩

/-! ### C3 helper lemmas -/

lemma cleanup_hamming_symm (a b : String) :
    cleanup.hamming_distance_hex a b = cleanup.hamming_distance_hex b a := by
  unfold cleanup.hamming_distance_hex
  simp only
  rw [min_comm b.length a.length]
  by_cases hn : min a.length b.length = 0
  · rw [if_pos hn, if_pos hn]
  · rw [if_neg hn, if_neg hn]
    cases parseHex? (strTake a (min a.length b.length)) with
    | none =>
      cases parseHex? (strTake b (min a.length b.length)) <;> rfl
    | some va =>
      cases parseHex? (strTake b (min a.length b.length)) with
      | none => rfl
      | some vb =>
        show popcount (va ^^^ vb) = popcount (vb ^^^ va)
        rw [Nat.xor_comm]

lemma farPairs_symm (t : Nat) : Symmetric (farPairs t) := by
  intro p q h
  exact ⟨h.2, h.1⟩

lemma placeFile_none_all_fail (t : Nat) (st : String) (f : cleanup.TFile) :
    ∀ s : List (List cleanup.TFile × String),
      cleanup.placeFile t st f s = none →
      ∀ p ∈ s, ¬ (cleanup.hamming_distance_hex st p.2 ≤ t) := by
  intro s
  induction s with
  | nil => intro _ p hp; exact absurd hp (List.not_mem_nil p)
  | cons q rest ih =>
    obtain ⟨g, rep⟩ := q
    intro h p hp
    unfold cleanup.placeFile at h
    by_cases hd : cleanup.hamming_distance_hex st rep ≤ t
    · rw [if_pos hd] at h
      exact absurd h (by simp)
    · rw [if_neg hd] at h
      rcases List.mem_cons.mp hp with hpe | hpm
      · rw [hpe]
        exact hd
      · cases hrec : cleanup.placeFile t st f rest with
        | some rest2 => rw [hrec] at h; exact absurd h (by simp)
        | none => exact ih hrec p hpm

lemma placeFile_snd_eq (t : Nat) (st : String) (f : cleanup.TFile) :
    ∀ (s s2 : List (List cleanup.TFile × String)),
      cleanup.placeFile t st f s = some s2 →
      s2.map Prod.snd = s.map Prod.snd := by
  intro s
  induction s with
  | nil => intro s2 h; exact absurd h (by simp [cleanup.placeFile])
  | cons q rest ih =>
    obtain ⟨g, rep⟩ := q
    intro s2 h
    unfold cleanup.placeFile at h
    by_cases hd : cleanup.hamming_distance_hex st rep ≤ t
    · rw [if_pos hd] at h
      injection h with h
      subst h
      rfl
    · rw [if_neg hd] at h
      cases hrec : cleanup.placeFile t st f rest with
      | none => rw [hrec] at h; exact absurd h (by simp)
      | some rest2 =>
        rw [hrec] at h
        injection h with h
        subst h
        simp only [List.map_cons]
        rw [ih rest2 hrec]

lemma placeFile_heads (t : Nat) (st : String) (f : cleanup.TFile) :
    ∀ (s s2 : List (List cleanup.TFile × String)),
      cleanup.placeFile t st f s = some s2 →
      (∀ p ∈ s, ∃ f0 gs, p.1 = f0 :: gs ∧ p.2 = cleanup.stemL f0) →
      (∀ p ∈ s2, ∃ f0 gs, p.1 = f0 :: gs ∧ p.2 = cleanup.stemL f0) := by
  intro s
  induction s with
  | nil => intro s2 h; exact absurd h (by simp [cleanup.placeFile])
  | cons q rest ih =>
    obtain ⟨g, rep⟩ := q
    intro s2 h hI p hp
    unfold cleanup.placeFile at h
    by_cases hd : cleanup.hamming_distance_hex st rep ≤ t
    · rw [if_pos hd] at h
      injection h with h
      subst h
      rcases List.mem_cons.mp hp with hpe | hpm
      · obtain ⟨f0, gs, hg, hrep⟩ := hI (g, rep) (List.mem_cons_self _ _)
        subst hpe
        refine ⟨f0, gs ++ [f], ?_, hrep⟩
        simp only at hg ⊢
        rw [hg, List.cons_append]
      · exact hI p (List.mem_cons_of_mem _ hpm)
    · rw [if_neg hd] at h
      cases hrec : cleanup.placeFile t st f rest with
      | none => rw [hrec] at h; exact absurd h (by simp)
      | some rest2 =>
        rw [hrec] at h
        injection h with h
        subst h
        rcases List.mem_cons.mp hp with hpe | hpm
        · rw [hpe]
          exact hI (g, rep) (List.mem_cons_self _ _)
        · exact ih rest2 hrec (fun p' hp' => hI p' (List.mem_cons_of_mem _ hp')) p hpm

lemma placeFile_mem_mono (t : Nat) (st : String) (f : cleanup.TFile) :
    ∀ (s s2 : List (List cleanup.TFile × String))
      (x : cleanup.TFile) (p : List cleanup.TFile × String),
      cleanup.placeFile t st f s = some s2 → p ∈ s → x ∈ p.1 →
      ∃ q ∈ s2, x ∈ q.1 := by
  intro s
  induction s with
  | nil => intro s2 x p h; exact absurd h (by simp [cleanup.placeFile])
  | cons q0 rest ih =>
    obtain ⟨g, rep⟩ := q0
    intro s2 x p h hp hx
    unfold cleanup.placeFile at h
    by_cases hd : cleanup.hamming_distance_hex st rep ≤ t
    · rw [if_pos hd] at h
      injection h with h
      subst h
      rcases List.mem_cons.mp hp with hpe | hpm
      · subst hpe
        exact ⟨(g ++ [f], rep), List.mem_cons_self _ _, List.mem_append_left _ hx⟩
      · exact ⟨p, List.mem_cons_of_mem _ hpm, hx⟩
    · rw [if_neg hd] at h
      cases hrec : cleanup.placeFile t st f rest with
      | none => rw [hrec] at h; exact absurd h (by simp)
      | some rest2 =>
        rw [hrec] at h
        injection h with h
        subst h
        rcases List.mem_cons.mp hp with hpe | hpm
        · subst hpe
          exact ⟨(g, rep), List.mem_cons_self _ _, hx⟩
        · obtain ⟨q, hq, hxq⟩ := ih rest2 x p hrec hpm hx
          exact ⟨q, List.mem_cons_of_mem _ hq, hxq⟩

lemma placeFile_mem_self (t : Nat) (st : String) (f : cleanup.TFile) :
    ∀ (s s2 : List (List cleanup.TFile × String)),
      cleanup.placeFile t st f s = some s2 → ∃ q ∈ s2, f ∈ q.1 := by
  intro s
  induction s with
  | nil => intro s2 h; exact absurd h (by simp [cleanup.placeFile])
  | cons q0 rest ih =>
    obtain ⟨g, rep⟩ := q0
    intro s2 h
    unfold cleanup.placeFile at h
    by_cases hd : cleanup.hamming_distance_hex st rep ≤ t
    · rw [if_pos hd] at h
      injection h with h
      subst h
      exact ⟨(g ++ [f], rep), List.mem_cons_self _ _,
        List.mem_append_right _ (List.mem_singleton.mpr rfl)⟩
    · rw [if_neg hd] at h
      cases hrec : cleanup.placeFile t st f rest with
      | none => rw [hrec] at h; exact absurd h (by simp)
      | some rest2 =>
        rw [hrec] at h
        injection h with h
        subst h
        obtain ⟨q, hq, hfq⟩ := ih rest2 hrec
        exact ⟨q, List.mem_cons_of_mem _ hq, hfq⟩

lemma pairwise_far_of_snd_eq (t : Nat)
    (s s2 : List (List cleanup.TFile × String))
    (heq : s2.map Prod.snd = s.map Prod.snd)
    (hpw : List.Pairwise (farPairs t) s) : List.Pairwise (farPairs t) s2 := by
  have h1 : List.Pairwise
      (fun a b : String => ¬ (cleanup.hamming_distance_hex a b ≤ t) ∧
        ¬ (cleanup.hamming_distance_hex b a ≤ t)) (s.map Prod.snd) := by
    rw [List.pairwise_map]
    exact hpw
  rw [← heq, List.pairwise_map] at h1
  exact h1

lemma groupStep_mem_mono (t : Nat) (s : List (List cleanup.TFile × String))
    (f x : cleanup.TFile) (h : ∃ p ∈ s, x ∈ p.1) :
    ∃ p ∈ cleanup.groupStep t s f, x ∈ p.1 := by
  obtain ⟨p, hp, hxp⟩ := h
  unfold cleanup.groupStep
  cases hrec : cleanup.placeFile t (cleanup.stemL f) f s with
  | some s2 => exact placeFile_mem_mono t _ f s s2 x p hrec hp hxp
  | none => exact ⟨p, List.mem_append_left _ hp, hxp⟩

lemma groupStep_mem_self (t : Nat) (s : List (List cleanup.TFile × String))
    (f : cleanup.TFile) : ∃ p ∈ cleanup.groupStep t s f, f ∈ p.1 := by
  unfold cleanup.groupStep
  cases hrec : cleanup.placeFile t (cleanup.stemL f) f s with
  | some s2 => exact placeFile_mem_self t _ f s s2 hrec
  | none =>
    exact ⟨([f], cleanup.stemL f),
      List.mem_append_right _ (List.mem_singleton.mpr rfl),
      List.mem_singleton.mpr rfl⟩

lemma groupStep_invariant (t : Nat) (s : List (List cleanup.TFile × String))
    (f : cleanup.TFile)
    (hI : ∀ p ∈ s, ∃ f0 gs, p.1 = f0 :: gs ∧ p.2 = cleanup.stemL f0)
    (hpw : List.Pairwise (farPairs t) s) :
    (∀ p ∈ cleanup.groupStep t s f,
      ∃ f0 gs, p.1 = f0 :: gs ∧ p.2 = cleanup.stemL f0) ∧
    List.Pairwise (farPairs t) (cleanup.groupStep t s f) := by
  unfold cleanup.groupStep
  cases hrec : cleanup.placeFile t (cleanup.stemL f) f s with
  | some s2 =>
    exact ⟨placeFile_heads t _ f s s2 hrec hI,
      pairwise_far_of_snd_eq t s s2 (placeFile_snd_eq t _ f s s2 hrec) hpw⟩
  | none =>
    constructor
    · intro p hp
      rcases List.mem_append.mp hp with h | h
      · exact hI p h
      · rw [List.mem_singleton.mp h]
        exact ⟨f, [], rfl, rfl⟩
    · rw [List.pairwise_append]
      refine ⟨hpw, List.pairwise_singleton _ _, ?_⟩
      intro p hp q hq
      rw [List.mem_singleton.mp hq]
      have hfail := placeFile_none_all_fail t (cleanup.stemL f) f s hrec p hp
      exact ⟨by rw [cleanup_hamming_symm]; exact hfail, hfail⟩

lemma grouping_foldl_invariant (t : Nat) (files : List cleanup.TFile) :
    ∀ s : List (List cleanup.TFile × String),
      (∀ p ∈ s, ∃ f0 gs, p.1 = f0 :: gs ∧ p.2 = cleanup.stemL f0) →
      List.Pairwise (farPairs t) s →
      (∀ p ∈ files.foldl (cleanup.groupStep t) s,
        ∃ f0 gs, p.1 = f0 :: gs ∧ p.2 = cleanup.stemL f0) ∧
      List.Pairwise (farPairs t) (files.foldl (cleanup.groupStep t) s) ∧
      (∀ x : cleanup.TFile, ((∃ p ∈ s, x ∈ p.1) ∨ x ∈ files) →
        ∃ p ∈ files.foldl (cleanup.groupStep t) s, x ∈ p.1) := by
  induction files with
  | nil =>
    intro s hI hpw
    refine ⟨hI, hpw, ?_⟩
    intro x hx
    rcases hx with h | h
    · exact h
    · exact absurd h (List.not_mem_nil x)
  | cons f fs ih =>
    intro s hI hpw
    rw [List.foldl_cons]
    obtain ⟨hI2, hpw2⟩ := groupStep_invariant t s f hI hpw
    obtain ⟨hA, hB, hC⟩ := ih (cleanup.groupStep t s f) hI2 hpw2
    refine ⟨hA, hB, ?_⟩
    intro x hx
    apply hC
    rcases hx with h | h
    · exact Or.inl (groupStep_mem_mono t s f x h)
    · rcases List.mem_cons.mp h with heq | h2
      · rw [heq]
        exact Or.inl (groupStep_mem_self t s f)
      · exact Or.inr h2

lemma grouping_all_singleton (t : Nat) :
    ∀ (l : List cleanup.TFile) (s : List (List cleanup.TFile × String)),
      (∀ p ∈ s, ∃ f, p.1 = [f]) →
      (∀ x ∈ l, ∀ p ∈ s,
        ¬ (cleanup.hamming_distance_hex (cleanup.stemL x) p.2 ≤ t)) →
      List.Pairwise (fun a b =>
        ¬ (cleanup.hamming_distance_hex (cleanup.stemL b) (cleanup.stemL a) ≤ t)) l →
      ∀ p ∈ l.foldl (cleanup.groupStep t) s, ∃ f, p.1 = [f] := by
  intro l
  induction l with
  | nil => intro s hs _ _ p hp; exact hs p hp
  | cons x xs ih =>
    intro s hs hfar hpw p hp
    rw [List.foldl_cons] at hp
    have hplace : cleanup.placeFile t (cleanup.stemL x) x s = none :=
      placeFile_none_of_all_fail t _ x s fun q hq =>
        hfar x (List.mem_cons_self _ _) q hq
    have hstep : cleanup.groupStep t s x = s ++ [([x], cleanup.stemL x)] := by
      unfold cleanup.groupStep
      rw [hplace]
    rw [hstep] at hp
    rw [List.pairwise_cons] at hpw
    refine ih (s ++ [([x], cleanup.stemL x)]) ?_ ?_ hpw.2 p hp
    · intro q hq
      rcases List.mem_append.mp hq with h | h
      · exact hs q h
      · rw [List.mem_singleton.mp h]
        exact ⟨x, rfl⟩
    · intro y hy q hq
      rcases List.mem_append.mp hq with h | h
      · exact hfar y (List.mem_cons_of_mem _ hy) q h
      · rw [List.mem_singleton.mp h]
        exact hpw.1 y hy

lemma deleteList_mem_of (groups : List (List cleanup.TFile))
    (g : List cleanup.TFile) (c x : cleanup.TFile) (hg : g ∈ groups)
    (hlen : ¬ g.length ≤ 1) (hc : cleanup.choose_canonical g = some c)
    (hx : x ∈ g) (hne : x ≠ c) : x ∈ cleanup.deleteList groups := by
  unfold cleanup.deleteList
  suffices hgen : ∀ (gs : List (List cleanup.TFile)) (acc : List cleanup.TFile),
      (x ∈ acc ∨ g ∈ gs) →
      x ∈ gs.foldl (fun acc g =>
        if g.length ≤ 1 then acc
        else match cleanup.choose_canonical g with
          | none => acc
          | some c => acc ++ g.filter fun f => f ≠ c) acc by
    exact hgen groups [] (Or.inr hg)
  intro gs
  induction gs with
  | nil =>
    intro acc h
    rcases h with h | h
    · exact h
    · exact absurd h (List.not_mem_nil g)
  | cons g0 rest ih =>
    intro acc h
    rw [List.foldl_cons]
    rcases h with h | h
    · apply ih
      left
      by_cases hl : g0.length ≤ 1
      · rw [if_pos hl]; exact h
      · rw [if_neg hl]
        cases cleanup.choose_canonical g0 with
        | none => exact h
        | some c0 => exact List.mem_append_left _ h
    · rcases List.mem_cons.mp h with heq | hmem
      · apply ih
        left
        rw [← heq, if_neg hlen, hc]
        refine List.mem_append_right _ ?_
        rw [List.mem_filter]
        exact ⟨hx, decide_eq_true hne⟩
      · exact ih _ (Or.inr hmem)

lemma deleteList_nil_of_singletons (groups : List (List cleanup.TFile))
    (h : ∀ g ∈ groups, ∃ f, g = [f]) : cleanup.deleteList groups = [] := by
  unfold cleanup.deleteList
  suffices hgen : ∀ (gs : List (List cleanup.TFile)) (acc : List cleanup.TFile),
      (∀ g ∈ gs, ∃ f, g = [f]) →
      gs.foldl (fun acc g =>
        if g.length ≤ 1 then acc
        else match cleanup.choose_canonical g with
          | none => acc
          | some c => acc ++ g.filter fun f => f ≠ c) acc = acc by
    exact hgen groups [] h
  intro gs
  induction gs with
  | nil => intro acc _; rfl
  | cons g0 rest ih =>
    intro acc hgs
    rw [List.foldl_cons]
    obtain ⟨f0, hf0⟩ := hgs g0 (List.mem_cons_self _ _)
    have hl : g0.length ≤ 1 := by rw [hf0]; simp
    rw [if_pos hl]
    exact ih acc fun g hg => hgs g (List.mem_cons_of_mem _ hg)

lemma mappingOfGroups_id (groups : List (List cleanup.TFile))
    (h : ∀ g ∈ groups, ∃ f, g = [f]) :
    ∀ kv ∈ cleanup.mappingOfGroups groups, kv.2 = kv.1 := by
  unfold cleanup.mappingOfGroups
  suffices hgen : ∀ (gs : List (List cleanup.TFile)) (acc : List (String × String)),
      (∀ g ∈ gs, ∃ f, g = [f]) → (∀ kv ∈ acc, kv.2 = kv.1) →
      ∀ kv ∈ gs.foldl (fun acc g =>
        match g with
        | [f] => acc ++ [(f.name, f.name)]
        | _ =>
          match cleanup.choose_canonical g with
          | none => acc
          | some c => acc ++ g.map fun f => (f.name, c.name)) acc, kv.2 = kv.1 by
    exact hgen groups [] h (by simp)
  intro gs
  induction gs with
  | nil => intro acc _ hacc kv hkv; exact hacc kv hkv
  | cons g0 rest ih =>
    intro acc hgs hacc kv hkv
    rw [List.foldl_cons] at hkv
    obtain ⟨f0, hf0⟩ := hgs g0 (List.mem_cons_self _ _)
    subst hf0
    refine ih _ (fun g hg => hgs g (List.mem_cons_of_mem _ hg)) ?_ kv hkv
    intro kv' hkv'
    rcases List.mem_append.mp hkv' with hmem | hmem
    · exact hacc kv' hmem
    · rw [List.mem_singleton.mp hmem]

lemma lookupMap_id (m : List (String × String)) (hid : ∀ kv ∈ m, kv.2 = kv.1)
    (k v : String) (h : cleanup.lookupMap m k = some v) : v = k := by
  unfold cleanup.lookupMap at h
  rw [Option.map_eq_some'] at h
  obtain ⟨kv, hfind, hv⟩ := h
  have hmem : kv ∈ m.reverse := List.mem_of_find?_eq_some hfind
  have hk : kv.1 = k := by
    have hpred := List.find?_some hfind
    simpa using hpred
  have hkv := hid kv (List.mem_reverse.mp hmem)
  rw [← hv, hkv, hk]

lemma updateItem_id (m : List (String × String)) (hid : ∀ kv ∈ m, kv.2 = kv.1)
    (it : cleanup.SnapItem) : cleanup.updateItem m it = (it, false) := by
  obtain ⟨nm, pr, th, tp⟩ := it
  unfold cleanup.updateItem
  cases tp with
  | none => rfl
  | some rel =>
    simp only
    by_cases h0 : rel = ""
    · rw [if_pos h0]
    · rw [if_neg h0]
      by_cases hsw : strStartsWith (cleanup.normSlashes rel) "thumbs/" = true
      · rw [if_pos hsw]
        cases hlook : cleanup.lookupMap m (strDrop (cleanup.normSlashes rel) 7) with
        | none => rfl
        | some nw =>
          have hnw : nw = strDrop (cleanup.normSlashes rel) 7 :=
            lookupMap_id m hid _ _ hlook
          rw [hnw]
          simp
      · rw [if_neg hsw]

lemma updateSnapshot_id (m : List (String × String))
    (hid : ∀ kv ∈ m, kv.2 = kv.1) (s : cleanup.Snapshot) :
    cleanup.updateSnapshot m s = (s, false) := by
  obtain ⟨cats⟩ := s
  have hitem : ∀ it : cleanup.SnapItem, cleanup.updateItem m it = (it, false) :=
    updateItem_id m hid
  unfold cleanup.updateSnapshot
  rw [Prod.mk.injEq]
  constructor
  · congr 1
    have hcat : ∀ cat ∈ cats,
        (fun cat : String × List cleanup.SnapItem =>
          (cat.1, cat.2.map fun it => (cleanup.updateItem m it).1)) cat = id cat := by
      intro cat _
      show (cat.1, cat.2.map fun it => (cleanup.updateItem m it).1) = cat
      have h2 : ∀ it ∈ cat.2,
          (fun it => (cleanup.updateItem m it).1) it = id it := by
        intro it _
        show (cleanup.updateItem m it).1 = it
        rw [hitem it]
      rw [List.map_congr_left h2, List.map_id]
    rw [List.map_congr_left hcat, List.map_id]
  · rw [List.any_eq_false]
    intro cat _
    intro hany
    rw [List.any_eq_true] at hany
    obtain ⟨it, _, hsnd⟩ := hany
    simp [hitem it] at hsnd

lemma update_snapshots_id (m : List (String × String))
    (hid : ∀ kv ∈ m, kv.2 = kv.1) (snaps : List cleanup.Snapshot) :
    cleanup.update_snapshots m snaps true = (snaps, 0) := by
  unfold cleanup.update_snapshots
  rw [Prod.mk.injEq]
  constructor
  · simp [updateSnapshot_id m hid]
  · simp [updateSnapshot_id m hid]

set_option maxRecDepth 40000 in
/-- C1: the visual-fallback tier is dead code.  Every iteration of its
candidate loop calls `are_images_similar` with the keyword argument
`rmse_threshold`, which is not a parameter of that function, so the call
raises `TypeError` and the surrounding `except` skips the candidate: for
every input the tier returns the fresh hash unchanged and the resolver's
chosen hash is decided by the filename-reuse tier alone.  In particular
(second part) a candidate passing both the distance filter and the visual
comparison is still not chosen, contradicting the claim. -/
theorem visual_fallback_never_reuses :
    (∀ (fresh : String) (stems : List String) (sim : String → Bool),
      main.tier3Scan fresh stems sim = fresh ∧
      main.resolveChosenHash fresh stems sim = main.tier2Scan fresh stems) ∧
    (main.tier3CandidateOk hash38A hash38B = true ∧
     (main.tier3Scan hash38A [hash38B] fun _ => true) = hash38A ∧
     hash38A ≠ hash38B) := by
  have hcond : (["rmse_threshold"].all fun k =>
      main.areImagesSimilarParams.contains k) = false := by decide
  have hcall : ∀ res : Bool,
      main.callAreImagesSimilar ["rmse_threshold"] res = Except.error () := by
    intro res
    unfold main.callAreImagesSimilar
    rw [hcond]
    rfl
  have hloop : ∀ (fresh : String) (sim : String → Bool) (l : List String),
      main.tier3Loop fresh sim l = fresh := by
    intro fresh sim l
    induction l with
    | nil => rfl
    | cons s rest ih =>
      show main.tier3Loop fresh sim (s :: rest) = fresh
      unfold main.tier3Loop
      rw [hcall (sim s)]
      exact ih
  have hscan : ∀ (fresh : String) (stems : List String) (sim : String → Bool),
      main.tier3Scan fresh stems sim = fresh := fun fresh stems sim =>
    hloop fresh sim _
  refine ⟨fun fresh stems sim => ⟨hscan fresh stems sim, ?_⟩,
          by decide, hscan _ _ _, by decide⟩
  unfold main.resolveChosenHash
  by_cases h : main.tier2Scan fresh stems = fresh ∧ stems ≠ []
  · rw [if_pos h, hscan, h.1]
  · rw [if_neg h]

/-! ### C3 -/

/-- C3 counterexample: reconciliation is not idempotent.  On the corpus
`0.png` (mtime 10), `1.png` (mtime 5), `3.png` (mtime 7) with threshold 1,
the first run groups `0` and `1` (representative `0`) and keeps `1` as
canonical (oldest); the second run then groups the surviving `1` with `3`
(distance 1), producing an additional multi-member group and a further
deletion. -/
theorem reconcile_not_idempotent_cx :
    (∃ g ∈ (cleanup.reconcile
        (cleanup.reconcile [⟨"0.png", 10⟩, ⟨"1.png", 5⟩, ⟨"3.png", 7⟩] [] 1 true).survivors
        (cleanup.reconcile [⟨"0.png", 10⟩, ⟨"1.png", 5⟩, ⟨"3.png", 7⟩] [] 1 true).snapsAfter
        1 true).groups, 1 < g.length) ∧
    (cleanup.reconcile
        (cleanup.reconcile [⟨"0.png", 10⟩, ⟨"1.png", 5⟩, ⟨"3.png", 7⟩] [] 1 true).survivors
        (cleanup.reconcile [⟨"0.png", 10⟩, ⟨"1.png", 5⟩, ⟨"3.png", 7⟩] [] 1 true).snapsAfter
        1 true).toDelete ≠ [] := by
  decide

/-- C3 (amended): reconciliation is idempotent provided the first run's
canonical member of every group is that group's first-listed member (its
representative) — in particular whenever modification-time order agrees
with listing order inside each group.  Then the second run over the
surviving files finds only singleton groups, deletes nothing, changes no
snapshot, and leaves the directory content unchanged. -/
theorem reconcile_idempotent_of_canonical_head
    (files : List cleanup.TFile) (snaps : List cleanup.Snapshot) (t : Nat)
    (r1 r2 : cleanup.ReconcileResult)
    (hr1 : r1 = cleanup.reconcile files snaps t true)
    (hr2 : r2 = cleanup.reconcile r1.survivors r1.snapsAfter t true)
    (hnd : files.Nodup)
    (hH : ∀ g ∈ r1.groups, cleanup.choose_canonical g = g.head?) :
    (∀ g ∈ r2.groups, g.length = 1) ∧ r2.toDelete = [] ∧ r2.changed = 0 ∧
      r2.snapsAfter = r1.snapsAfter ∧ r2.survivors = r1.survivors := by
  have hg1 : r1.groups = cleanup.group_similar_hashes files t := by rw [hr1]; rfl
  have hs1 : r1.survivors = files.filter
      (fun f => f ∉ cleanup.deleteList (cleanup.group_similar_hashes files t)) := by
    rw [hr1]; rfl
  obtain ⟨hI1, hpw1, hmem1⟩ := grouping_foldl_invariant t files []
    (by intro p hp; exact absurd hp (List.not_mem_nil p)) List.Pairwise.nil
  have hsurv_head : ∀ x ∈ r1.survivors,
      ∃ p ∈ files.foldl (cleanup.groupStep t) [], ∃ gs, p.1 = x :: gs := by
    intro x hx
    rw [hs1, List.mem_filter] at hx
    obtain ⟨hxf, hxdel'⟩ := hx
    have hxdel : x ∉ cleanup.deleteList (cleanup.group_similar_hashes files t) :=
      of_decide_eq_true hxdel'
    obtain ⟨p, hp, hxp⟩ := hmem1 x (Or.inr hxf)
    obtain ⟨f0, gs, hpg, hrep⟩ := hI1 p hp
    by_cases hxf0 : x = f0
    · exact ⟨p, hp, gs, by rw [hpg, hxf0]⟩
    · exfalso
      apply hxdel
      have hglen : ¬ p.1.length ≤ 1 := by
        rw [hpg]
        cases gs with
        | nil =>
          exfalso
          apply hxf0
          rw [hpg] at hxp
          exact List.mem_singleton.mp hxp
        | cons a l => simp
      have hcanon : cleanup.choose_canonical p.1 = some f0 := by
        have := hH p.1 (by rw [hg1]; exact List.mem_map_of_mem Prod.fst hp)
        rw [this, hpg]
        rfl
      exact deleteList_mem_of (cleanup.group_similar_hashes files t) p.1 f0 x
        (List.mem_map_of_mem Prod.fst hp) hglen hcanon hxp hxf0
  have hfar : ∀ x ∈ r1.survivors, ∀ y ∈ r1.survivors, x ≠ y →
      ¬ (cleanup.hamming_distance_hex (cleanup.stemL y) (cleanup.stemL x) ≤ t) := by
    intro x hx y hy hxy
    obtain ⟨px, hpx, gsx, hpx1⟩ := hsurv_head x hx
    obtain ⟨py, hpy, gsy, hpy1⟩ := hsurv_head y hy
    have hpxy : px ≠ py := by
      intro hc
      apply hxy
      have hxy2 : x :: gsx = y :: gsy := by rw [← hpx1, hc, hpy1]
      exact (List.cons_eq_cons.mp hxy2).1
    have hQ : farPairs t px py :=
      List.Pairwise.forall (farPairs_symm t) hpw1 hpx hpy hpxy
    obtain ⟨f0, gs0, hg0, hr0⟩ := hI1 px hpx
    obtain ⟨f1, gs1, hg1', hr1'⟩ := hI1 py hpy
    have hf0 : f0 = x := by
      have hcc : f0 :: gs0 = x :: gsx := by rw [← hg0, hpx1]
      exact (List.cons_eq_cons.mp hcc).1
    have hf1 : f1 = y := by
      have hcc : f1 :: gs1 = y :: gsy := by rw [← hg1', hpy1]
      exact (List.cons_eq_cons.mp hcc).1
    have hx2 : px.2 = cleanup.stemL x := by rw [hr0, hf0]
    have hy2 : py.2 = cleanup.stemL y := by rw [hr1', hf1]
    have := hQ.2
    rw [hy2, hx2] at this
    exact this
  have hSnd : r1.survivors.Nodup := by
    rw [hs1]
    exact hnd.filter _
  have hpwS : r1.survivors.Pairwise (fun a b =>
      ¬ (cleanup.hamming_distance_hex (cleanup.stemL b) (cleanup.stemL a) ≤ t)) :=
    List.Nodup.pairwise_of_forall_ne hSnd hfar
  have hsing : ∀ g ∈ cleanup.group_similar_hashes r1.survivors t, ∃ f, g = [f] := by
    intro g hg
    obtain ⟨p, hp, hpg⟩ := List.mem_map.mp hg
    obtain ⟨f, hf⟩ := grouping_all_singleton t r1.survivors []
      (by intro p' hp'; exact absurd hp' (List.not_mem_nil p'))
      (by intro x _ p' hp'; exact absurd hp' (List.not_mem_nil p'))
      hpwS p hp
    exact ⟨f, by rw [← hpg, hf]⟩
  have hg2 : r2.groups = cleanup.group_similar_hashes r1.survivors t := by rw [hr2]; rfl
  have hdels2 : cleanup.deleteList (cleanup.group_similar_hashes r1.survivors t) = [] :=
    deleteList_nil_of_singletons _ hsing
  have hmapid : ∀ kv ∈ cleanup.mappingOfGroups
      (cleanup.group_similar_hashes r1.survivors t), kv.2 = kv.1 :=
    mappingOfGroups_id _ hsing
  have hupd := update_snapshots_id _ hmapid r1.snapsAfter
  refine ⟨?_, ?_, ?_, ?_, ?_⟩
  · intro g hg
    rw [hg2] at hg
    obtain ⟨f, hf⟩ := hsing g hg
    rw [hf]
    rfl
  · have : r2.toDelete = cleanup.deleteList
        (cleanup.group_similar_hashes r1.survivors t) := by rw [hr2]; rfl
    rw [this, hdels2]
  · have : r2.changed = (cleanup.update_snapshots
        (cleanup.mappingOfGroups (cleanup.group_similar_hashes r1.survivors t))
        r1.snapsAfter true).2 := by rw [hr2]; rfl
    rw [this, hupd]
  · have : r2.snapsAfter = (cleanup.update_snapshots
        (cleanup.mappingOfGroups (cleanup.group_similar_hashes r1.survivors t))
        r1.snapsAfter true).1 := by rw [hr2]; rfl
    rw [this, hupd]
  · have hsv : r2.survivors = r1.survivors.filter
        (fun f => f ∉ cleanup.deleteList
          (cleanup.group_similar_hashes r1.survivors t)) := by rw [hr2]; rfl
    rw [hsv, hdels2]
    rw [List.filter_eq_self]
    intro a _
    exact decide_eq_true (List.not_mem_nil a)

/-- C3 witness: the amended idempotence applied to a concrete corpus where
each group's oldest member is its first-listed member — the second run is
a no-op. -/
theorem reconcile_idempotent_witness :
    (([⟨"0.png", 1⟩, ⟨"1.png", 2⟩, ⟨"3.png", 5⟩] : List cleanup.TFile).Nodup ∧
      (∀ g ∈ (cleanup.reconcile [⟨"0.png", 1⟩, ⟨"1.png", 2⟩, ⟨"3.png", 5⟩] [] 1 true).groups,
        cleanup.choose_canonical g = g.head?)) ∧
    ((∀ g ∈ (cleanup.reconcile
        (cleanup.reconcile [⟨"0.png", 1⟩, ⟨"1.png", 2⟩, ⟨"3.png", 5⟩] [] 1 true).survivors
        (cleanup.reconcile [⟨"0.png", 1⟩, ⟨"1.png", 2⟩, ⟨"3.png", 5⟩] [] 1 true).snapsAfter
        1 true).groups, g.length = 1) ∧
      (cleanup.reconcile
        (cleanup.reconcile [⟨"0.png", 1⟩, ⟨"1.png", 2⟩, ⟨"3.png", 5⟩] [] 1 true).survivors
        (cleanup.reconcile [⟨"0.png", 1⟩, ⟨"1.png", 2⟩, ⟨"3.png", 5⟩] [] 1 true).snapsAfter
        1 true).toDelete = [] ∧
      (cleanup.reconcile
        (cleanup.reconcile [⟨"0.png", 1⟩, ⟨"1.png", 2⟩, ⟨"3.png", 5⟩] [] 1 true).survivors
        (cleanup.reconcile [⟨"0.png", 1⟩, ⟨"1.png", 2⟩, ⟨"3.png", 5⟩] [] 1 true).snapsAfter
        1 true).changed = 0 ∧
      (cleanup.reconcile
        (cleanup.reconcile [⟨"0.png", 1⟩, ⟨"1.png", 2⟩, ⟨"3.png", 5⟩] [] 1 true).survivors
        (cleanup.reconcile [⟨"0.png", 1⟩, ⟨"1.png", 2⟩, ⟨"3.png", 5⟩] [] 1 true).snapsAfter
        1 true).snapsAfter =
        (cleanup.reconcile [⟨"0.png", 1⟩, ⟨"1.png", 2⟩, ⟨"3.png", 5⟩] [] 1 true).snapsAfter ∧
      (cleanup.reconcile
        (cleanup.reconcile [⟨"0.png", 1⟩, ⟨"1.png", 2⟩, ⟨"3.png", 5⟩] [] 1 true).survivors
        (cleanup.reconcile [⟨"0.png", 1⟩, ⟨"1.png", 2⟩, ⟨"3.png", 5⟩] [] 1 true).snapsAfter
        1 true).survivors =
        (cleanup.reconcile [⟨"0.png", 1⟩, ⟨"1.png", 2⟩, ⟨"3.png", 5⟩] [] 1 true).survivors) :=
  ⟨⟨by decide, by decide⟩,
   reconcile_idempotent_of_canonical_head
     [⟨"0.png", 1⟩, ⟨"1.png", 2⟩, ⟨"3.png", 5⟩] [] 1 _ _ rfl rfl
     (by decide) (by decide)⟩

/-! ### C4 -/

lemma str_data_ne (s : String) (h : s ≠ "") : s.data ≠ [] := by
  intro hc
  apply h
  cases s with
  | mk data =>
    simp only at hc
    rw [hc]

lemma foldl_parseHexStep_some (cs : List Char) :
    ∀ a : Nat, (∀ c ∈ cs, isHexDigitB c = true) →
      ∃ v, cs.foldl parseHexStep (some a) = some v := by
  induction cs with
  | nil => intro a _; exact ⟨a, rfl⟩
  | cons c rest ih =>
    intro a hhex
    have hc := hhex c (List.mem_cons_self _ _)
    obtain ⟨d, hd⟩ : ∃ d, hexDigitVal? c = some d := by
      unfold isHexDigitB at hc
      cases h : hexDigitVal? c with
      | none => rw [h] at hc; exact absurd hc (by simp)
      | some d => exact ⟨d, rfl⟩
    rw [List.foldl_cons]
    have hstep : parseHexStep (some a) c = some (16 * a + d) := by
      unfold parseHexStep; rw [hd]
    rw [hstep]
    exact ih _ fun c' hc' => hhex c' (List.mem_cons_of_mem _ hc')

lemma parseHexList_isSome (cs : List Char) (hne : cs ≠ [])
    (hhex : ∀ c ∈ cs, isHexDigitB c = true) : ∃ v, parseHexList cs = some v := by
  unfold parseHexList
  rw [if_neg hne]
  exact foldl_parseHexStep_some cs 0 hhex

lemma hamming_some_of_hex (a b : String) (ha : IsHexStr a) (hb : IsHexStr b) :
    ∃ d, utils.hamming_distance_hex a b = some d := by
  unfold utils.hamming_distance_hex
  have hne : ¬ (a = "" ∨ b = "") := by
    rintro (h | h)
    · exact ha.1 h
    · exact hb.1 h
  rw [if_neg hne]
  simp only
  have hpa : 0 < a.data.length := List.length_pos.mpr (str_data_ne a ha.1)
  have hpb : 0 < b.data.length := List.length_pos.mpr (str_data_ne b hb.1)
  have hla : a.length = a.data.length := rfl
  have hlb : b.length = b.data.length := rfl
  have hmin : ¬ (min a.length b.length = 0) := by rw [hla, hlb]; omega
  rw [if_neg hmin]
  obtain ⟨va, hva⟩ := parseHexList_isSome (a.data.take (min a.length b.length))
    (by
      intro hc0
      rw [List.take_eq_nil_iff] at hc0
      rcases hc0 with hc | hc
      · omega
      · exact str_data_ne a ha.1 hc)
    fun c hc => ha.2 c (List.take_subset _ _ hc)
  obtain ⟨vb, hvb⟩ := parseHexList_isSome (b.data.take (min a.length b.length))
    (by
      intro hc0
      rw [List.take_eq_nil_iff] at hc0
      rcases hc0 with hc | hc
      · omega
      · exact str_data_ne b hb.1 hc)
    fun c hc => hb.2 c (List.take_subset _ _ hc)
  have hta : parseHex? (strTake a (min a.length b.length)) = some va := hva
  have htb : parseHex? (strTake b (min a.length b.length)) = some vb := hvb
  rw [hta, htb]
  exact ⟨_, rfl⟩

lemma hsvPair_some_of_hex (s : String) (hs : IsHexStr s) (hlen : 22 ≤ s.length)
    (i : Nat) (hi : i < 3) : ∃ v, main.hsvPair? s i = some v := by
  unfold main.hsvPair?
  have hdata : (strTake (strDrop (lastN s 6) (2 * i)) 2).data =
      ((s.data.drop (s.data.length - 6)).drop (2 * i)).take 2 := rfl
  unfold parseHex?
  rw [hdata]
  apply parseHexList_isSome
  · have hls : s.length = s.data.length := rfl
    have h1 := List.length_drop (s.data.length - 6) s.data
    have h2 := List.length_drop (2 * i) (s.data.drop (s.data.length - 6))
    intro hc0
    rw [List.take_eq_nil_iff] at hc0
    rcases hc0 with hc | hc
    · omega
    · have := congrArg List.length hc
      simp only [List.length_nil] at this
      omega
  · intro c hc
    exact hs.2 c (List.drop_subset _ _ (List.drop_subset _ _ (List.take_subset _ _ hc)))

lemma tier2Accepts_iff (fresh stem : String) (hf : IsHexStr fresh)
    (hs : IsHexStr stem) :
    main.tier2Accepts fresh stem = true ↔ specTier2Cond fresh stem := by
  obtain ⟨d, hd⟩ := hamming_some_of_hex fresh stem hf hs
  have hacc : main.tier2Accepts fresh stem =
      (decide (d ≤ 4) && main.hsvOkWith 15 40 fresh stem) := by
    unfold main.tier2Accepts
    rw [hd]
  rw [hacc]
  unfold specTier2Cond
  by_cases h22 : 22 ≤ fresh.length ∧ 22 ≤ stem.length
  · obtain ⟨haf, haf2⟩ := h22
    obtain ⟨hF, hhF⟩ := hsvPair_some_of_hex fresh hf haf 0 (by omega)
    obtain ⟨sF, hsF⟩ := hsvPair_some_of_hex fresh hf haf 1 (by omega)
    obtain ⟨vF, hvF⟩ := hsvPair_some_of_hex fresh hf haf 2 (by omega)
    obtain ⟨hS, hhS⟩ := hsvPair_some_of_hex stem hs haf2 0 (by omega)
    obtain ⟨sS, hsS⟩ := hsvPair_some_of_hex stem hs haf2 1 (by omega)
    obtain ⟨vS, hvS⟩ := hsvPair_some_of_hex stem hs haf2 2 (by omega)
    have hgate : main.hsvOkWith 15 40 fresh stem =
        (decide (|(hF : Int) - hS| ≤ 15) && decide (|(sF : Int) - sS| ≤ 40)) := by
      unfold main.hsvOkWith
      rw [if_pos ⟨haf, haf2⟩, hhF, hsF, hvF, hhS, hsS, hvS]
    have hsufH : specSuffixHue fresh = (hF : Int) := by
      unfold specSuffixHue; rw [hhF]; rfl
    have hsufHs : specSuffixHue stem = (hS : Int) := by
      unfold specSuffixHue; rw [hhS]; rfl
    have hsufS : specSuffixSat fresh = (sF : Int) := by
      unfold specSuffixSat; rw [hsF]; rfl
    have hsufSs : specSuffixSat stem = (sS : Int) := by
      unfold specSuffixSat; rw [hsS]; rfl
    rw [hgate, hsufH, hsufHs, hsufS, hsufSs]
    constructor
    · intro hand
      rw [Bool.and_eq_true, Bool.and_eq_true] at hand
      exact ⟨⟨d, hd, of_decide_eq_true hand.1⟩,
        fun _ _ => ⟨of_decide_eq_true hand.2.1, of_decide_eq_true hand.2.2⟩⟩
    · rintro ⟨⟨d', hd', hle⟩, hsuf⟩
      rw [hd] at hd'
      injection hd' with hd'
      subst hd'
      obtain ⟨hb1, hb2⟩ := hsuf haf haf2
      rw [Bool.and_eq_true, Bool.and_eq_true]
      exact ⟨decide_eq_true hle, decide_eq_true hb1, decide_eq_true hb2⟩
  · have hgate : main.hsvOkWith 15 40 fresh stem = true := by
      unfold main.hsvOkWith
      rw [if_neg h22]
    rw [hgate]
    constructor
    · intro hand
      rw [Bool.and_eq_true] at hand
      exact ⟨⟨d, hd, of_decide_eq_true hand.1⟩, fun h1 h2 => absurd ⟨h1, h2⟩ h22⟩
    · rintro ⟨⟨d', hd', hle⟩, _⟩
      rw [hd] at hd'
      injection hd' with hd'
      subst hd'
      rw [Bool.and_eq_true]
      exact ⟨decide_eq_true hle, rfl⟩

/-- C4: characterization of the filename-reuse tier on hex inputs.  A stem
is accepted exactly when the Hamming distance is at most 4 and — for
composite strings of at least 22 hex characters — the HSV suffixes agree
within the 15/40 hue/saturation tolerances; when no listed stem satisfies
the condition the fresh hash is kept (so, in particular, a same-shape stem
whose hue suffix differs by more than 15 is not merged even at distance at
most 4); and when some stem satisfies it, the first such stem in listing
order is returned. -/
theorem filename_reuse_tier_characterization
    (fresh : String) (stems : List String)
    (hf : IsHexStr fresh) (hs : ∀ s ∈ stems, IsHexStr s) :
    (∀ s ∈ stems, (main.tier2Accepts fresh s = true ↔ specTier2Cond fresh s)) ∧
    ((∀ s ∈ stems, ¬ specTier2Cond fresh s) → main.tier2Scan fresh stems = fresh) ∧
    (∀ pre s post, stems = pre ++ s :: post → specTier2Cond fresh s →
      (∀ s' ∈ pre, ¬ specTier2Cond fresh s') →
      main.tier2Scan fresh stems = s) := by
  refine ⟨fun s hmem => tier2Accepts_iff fresh s hf (hs s hmem), ?_, ?_⟩
  · intro hnone
    unfold main.tier2Scan
    have : stems.find? (main.tier2Accepts fresh) = none := by
      rw [List.find?_eq_none]
      intro s hmem hacc
      exact hnone s hmem ((tier2Accepts_iff fresh s hf (hs s hmem)).mp hacc)
    rw [this]
  · intro pre s post hsplit hcond hprev
    subst hsplit
    unfold main.tier2Scan
    have hpre : pre.find? (main.tier2Accepts fresh) = none := by
      rw [List.find?_eq_none]
      intro s' hmem hacc
      exact hprev s' hmem ((tier2Accepts_iff fresh s' hf
        (hs s' (List.mem_append_left _ hmem))).mp hacc)
    have hacc : main.tier2Accepts fresh s = true :=
      (tier2Accepts_iff fresh s hf
        (hs s (List.mem_append_right _ (List.mem_cons_self _ _)))).mpr hcond
    rw [List.find?_append, hpre, Option.none_or, List.find?_cons_of_pos _ hacc]

set_option maxRecDepth 100000 in
/-- C4 witness: the tier applied to the all-zero fresh fingerprint and the
single stored stem at Hamming distance 1 with identical HSV suffix — the
stem is reused. -/
theorem filename_reuse_tier_witness :
    (IsHexStr hash38A ∧ ∀ s ∈ [hash38B], IsHexStr s) ∧
    main.tier2Scan hash38A [hash38B] = hash38B :=
  ⟨⟨by decide, by decide⟩,
   (filename_reuse_tier_characterization hash38A [hash38B] (by decide)
      (by decide)).2.2 [] hash38B [] rfl
    ⟨⟨1, by decide, by decide⟩, fun _ _ => ⟨by decide, by decide⟩⟩
    (by simp)⟩

/-! ### C7 -/

lemma foldl_pack_lt (l : List Bool) :
    ∀ (acc k : Nat), acc < 2 ^ k →
      l.foldl (fun acc b => 2 * acc + (if b then 1 else 0)) acc < 2 ^ (k + l.length) := by
  induction l with
  | nil => intro acc k h; simpa using h
  | cons b rest ih =>
    intro acc k h
    have hb : (if b then 1 else 0) ≤ 1 := by cases b <;> simp
    have hp : 2 ^ (k + 1) = 2 * 2 ^ k := by rw [Nat.pow_succ]; ring
    have h2 : 2 * acc + (if b then 1 else 0) < 2 ^ (k + 1) := by omega
    have heq : k + (rest.length + 1) = (k + 1) + rest.length := by omega
    rw [List.foldl_cons, List.length_cons, heq]
    exact ih _ (k + 1) h2

lemma packBits_lt (l : List Bool) : packBits l < 2 ^ l.length := by
  have := foldl_pack_lt l 0 0 (by norm_num)
  simpa [packBits] using this

lemma bitsOfGrid_length (rows cols : Nat) (bit : Nat → Nat → Bool) :
    (bitsOfGrid rows cols bit).length = rows * cols := by
  unfold bitsOfGrid
  rw [List.length_flatten, List.map_map]
  have hmap : (List.range rows).map (List.length ∘ fun y =>
      (List.range cols).map fun x => bit y x) = (List.range rows).map fun _ => cols := by
    apply List.map_congr_left
    intro y _
    simp
  rw [hmap, List.map_const', List.sum_replicate, List.length_range, smul_eq_mul]

lemma aVal_lt (img : Img) : utils.aVal img < 16 ^ 16 := by
  have h := packBits_lt (bitsOfGrid 8 8 fun y x =>
    decide ((utils.aSmall img y x : ℚ) > utils.aAvg img))
  rw [bitsOfGrid_length] at h
  have : (16 : Nat) ^ 16 = 2 ^ 64 := by norm_num
  rw [this]
  exact h

lemma dVal_lt (img : Img) : utils.dVal img < 16 ^ 16 := by
  have h := packBits_lt (bitsOfGrid 8 8 fun y x =>
    decide (utils.dSmall img y (x + 1) > utils.dSmall img y x))
  rw [bitsOfGrid_length] at h
  have : (16 : Nat) ^ 16 = 2 ^ 64 := by norm_num
  rw [this]
  exact h

lemma round_clip255_le (x : ℚ) : (round (utils.clip255 x)).toNat ≤ 255 := by
  have hle : utils.clip255 x ≤ 255 := min_le_left _ _
  have h1 : round (utils.clip255 x) ≤ round (255 : ℚ) := by
    rw [round_eq, round_eq]
    exact Int.floor_le_floor (by linarith)
  have h2 : round (255 : ℚ) = 255 := by norm_num
  rw [h2] at h1
  exact Int.toNat_le.mpr h1

lemma hsvMeans_le (img : Img) :
    (utils.hsvMeans img).1 ≤ 255 ∧ (utils.hsvMeans img).2.1 ≤ 255 ∧
      (utils.hsvMeans img).2.2 ≤ 255 :=
  ⟨round_clip255_le _, round_clip255_le _, round_clip255_le _⟩

lemma natToHexRevAux_length :
    ∀ (fuel n k : Nat), n < 16 ^ k → n ≤ fuel →
      (natToHexRevAux fuel n).length ≤ k := by
  intro fuel
  induction fuel with
  | zero => intro n k _ _; simp [natToHexRevAux]
  | succ fuel ih =>
    intro n k hk hfuel
    unfold natToHexRevAux
    by_cases h0 : n = 0
    · rw [if_pos h0]; simp
    · rw [if_neg h0]
      have hkpos : k ≠ 0 := by
        intro hc
        rw [hc, pow_zero] at hk
        omega
      have hdiv : n / 16 < 16 ^ (k - 1) := by
        rw [Nat.div_lt_iff_lt_mul (by norm_num)]
        have : 16 ^ (k - 1) * 16 = 16 ^ k := by
          rw [← Nat.pow_succ]
          congr 1
          omega
        omega
      have hfuel2 : n / 16 ≤ fuel := by
        have : n / 16 < n := Nat.div_lt_self (by omega) (by norm_num)
        omega
      have := ih (n / 16) (k - 1) hdiv hfuel2
      simp only [List.length_cons]
      omega

lemma hexDigitChar_hex : ∀ d, d < 16 → isHexDigitB (hexDigitChar d) = true := by
  decide

lemma natToHexRevAux_chars :
    ∀ (fuel n : Nat), ∀ c ∈ natToHexRevAux fuel n, ∃ d, d < 16 ∧ c = hexDigitChar d := by
  intro fuel
  induction fuel with
  | zero => intro n c hc; exact absurd hc (by simp [natToHexRevAux])
  | succ fuel ih =>
    intro n c hc
    unfold natToHexRevAux at hc
    by_cases h0 : n = 0
    · rw [if_pos h0] at hc
      exact absurd hc (List.not_mem_nil c)
    · rw [if_neg h0] at hc
      rcases List.mem_cons.mp hc with h | h
      · exact ⟨n % 16, Nat.mod_lt _ (by norm_num), h⟩
      · exact ih (n / 16) c h

lemma hexPad_length (w n : Nat) (hw : 0 < w) (h : n < 16 ^ w) :
    (hexPad w n).length = w := by
  unfold hexPad
  by_cases h0 : n = 0
  · rw [if_pos h0]
    show (List.replicate (w - 1) '0' ++ ['0']).length = w
    rw [List.length_append, List.length_replicate]
    simp
    omega
  · rw [if_neg h0]
    have hlen : (natToHexRev n).length ≤ w := natToHexRevAux_length n n w h (le_refl n)
    show (List.replicate (w - (natToHexRev n).reverse.length) '0' ++
      (natToHexRev n).reverse).length = w
    rw [List.length_append, List.length_replicate, List.length_reverse]
    omega

lemma hexPad_chars (w n : Nat) :
    ∀ c ∈ (hexPad w n).data, isHexDigitB c = true := by
  intro c hc
  unfold hexPad at hc
  by_cases h0 : n = 0
  · rw [if_pos h0] at hc
    have hc' : c ∈ List.replicate (w - 1) '0' ++ ['0'] := hc
    rcases List.mem_append.mp hc' with h | h
    · rw [List.eq_of_mem_replicate h]
      decide
    · rw [List.mem_singleton.mp h]
      decide
  · rw [if_neg h0] at hc
    have hc' : c ∈ List.replicate (w - (natToHexRev n).reverse.length) '0' ++
        (natToHexRev n).reverse := hc
    rcases List.mem_append.mp hc' with h | h
    · rw [List.eq_of_mem_replicate h]
      decide
    · obtain ⟨d, hd, rfl⟩ := natToHexRevAux_chars n n c (List.mem_reverse.mp h)
      exact hexDigitChar_hex d hd

/-- C7: on a non-degenerate image the fingerprint is a pure function of
the pixel buffer (two calls agree), and decomposes as a 16-hex-digit
average hash, a 16-hex-digit gradient hash and three 2-hex-digit clipped
HSV summary bytes — 38 hexadecimal characters in all. -/
theorem fingerprint_shape_deterministic (img : Img)
    (hh : img.h ≠ 0) (hw : img.w ≠ 0) :
    utils.compute_thumbnail_hash (some img) = utils.compute_thumbnail_hash (some img) ∧
    utils.compute_thumbnail_hash (some img) =
      hexPad 16 (utils.aVal (utils.croppedOf img)) ++
      hexPad 16 (utils.dVal (utils.croppedOf img)) ++
      hexPad 2 (utils.hsvMeans (utils.croppedOf img)).1 ++
      hexPad 2 (utils.hsvMeans (utils.croppedOf img)).2.1 ++
      hexPad 2 (utils.hsvMeans (utils.croppedOf img)).2.2 ∧
    (hexPad 16 (utils.aVal (utils.croppedOf img))).length = 16 ∧
    (hexPad 16 (utils.dVal (utils.croppedOf img))).length = 16 ∧
    (hexPad 2 (utils.hsvMeans (utils.croppedOf img)).1).length = 2 ∧
    (hexPad 2 (utils.hsvMeans (utils.croppedOf img)).2.1).length = 2 ∧
    (hexPad 2 (utils.hsvMeans (utils.croppedOf img)).2.2).length = 2 ∧
    (utils.compute_thumbnail_hash (some img)).length = 38 ∧
    (∀ c ∈ (utils.compute_thumbnail_hash (some img)).data, isHexDigitB c = true) := by
  have hcond : ¬ (img.h = 0 ∨ img.w = 0) := by
    rintro (h | h)
    · exact hh h
    · exact hw h
  have hdecomp : utils.compute_thumbnail_hash (some img) =
      hexPad 16 (utils.aVal (utils.croppedOf img)) ++
      hexPad 16 (utils.dVal (utils.croppedOf img)) ++
      hexPad 2 (utils.hsvMeans (utils.croppedOf img)).1 ++
      hexPad 2 (utils.hsvMeans (utils.croppedOf img)).2.1 ++
      hexPad 2 (utils.hsvMeans (utils.croppedOf img)).2.2 := if_neg hcond
  obtain ⟨hm1, hm2, hm3⟩ := hsvMeans_le (utils.croppedOf img)
  have hl1 : (hexPad 16 (utils.aVal (utils.croppedOf img))).length = 16 :=
    hexPad_length 16 _ (by norm_num) (aVal_lt _)
  have hl2 : (hexPad 16 (utils.dVal (utils.croppedOf img))).length = 16 :=
    hexPad_length 16 _ (by norm_num) (dVal_lt _)
  have hl3 : (hexPad 2 (utils.hsvMeans (utils.croppedOf img)).1).length = 2 :=
    hexPad_length 2 _ (by norm_num) (by norm_num; omega)
  have hl4 : (hexPad 2 (utils.hsvMeans (utils.croppedOf img)).2.1).length = 2 :=
    hexPad_length 2 _ (by norm_num) (by norm_num; omega)
  have hl5 : (hexPad 2 (utils.hsvMeans (utils.croppedOf img)).2.2).length = 2 :=
    hexPad_length 2 _ (by norm_num) (by norm_num; omega)
  refine ⟨rfl, hdecomp, hl1, hl2, hl3, hl4, hl5, ?_, ?_⟩
  · rw [hdecomp, String.length_append, String.length_append, String.length_append,
      String.length_append, hl1, hl2, hl3, hl4, hl5]
  · intro c hc
    rw [hdecomp] at hc
    rw [String.data_append, String.data_append, String.data_append,
      String.data_append] at hc
    rcases List.mem_append.mp hc with hc | hc
    · rcases List.mem_append.mp hc with hc | hc
      · rcases List.mem_append.mp hc with hc | hc
        · rcases List.mem_append.mp hc with hc | hc
          · exact hexPad_chars _ _ c hc
          · exact hexPad_chars _ _ c hc
        · exact hexPad_chars _ _ c hc
      · exact hexPad_chars _ _ c hc
    · exact hexPad_chars _ _ c hc

/-- C7 witness: the shape clauses applied to a concrete 1x1 image. -/
theorem fingerprint_shape_witness :
    ((⟨1, 1, fun _ _ => ⟨10, 20, 30⟩⟩ : Img).h ≠ 0 ∧
      (⟨1, 1, fun _ _ => ⟨10, 20, 30⟩⟩ : Img).w ≠ 0) ∧
    ((utils.compute_thumbnail_hash (some ⟨1, 1, fun _ _ => ⟨10, 20, 30⟩⟩)).length = 38 ∧
      ∀ c ∈ (utils.compute_thumbnail_hash (some ⟨1, 1, fun _ _ => ⟨10, 20, 30⟩⟩)).data,
        isHexDigitB c = true) :=
  ⟨⟨by decide, by decide⟩,
   (fingerprint_shape_deterministic ⟨1, 1, fun _ _ => ⟨10, 20, 30⟩⟩
      (by decide) (by decide)).2.2.2.2.2.2.2⟩

/-! ### C6 -/

lemma head_insertByMtime (f : cleanup.TFile) (l : List cleanup.TFile) :
    (cleanup.insertByMtime f l).head? =
      some (match l.head? with
            | none => f
            | some g => if f.mtime ≤ g.mtime then f else g) := by
  cases l with
  | nil => rfl
  | cons g gs =>
    unfold cleanup.insertByMtime
    by_cases h : f.mtime ≤ g.mtime
    · rw [if_pos h]
      simp only [List.head?_cons]
      rw [if_pos h]
    · rw [if_neg h]
      simp only [List.head?_cons]
      rw [if_neg h]

lemma sortByMtime_head_eq_firstMin :
    ∀ l : List cleanup.TFile, (cleanup.sortByMtime l).head? = firstMin l := by
  intro l
  induction l with
  | nil => rfl
  | cons f fs ih =>
    show (cleanup.insertByMtime f (cleanup.sortByMtime fs)).head? = firstMin (f :: fs)
    rw [head_insertByMtime, ih]
    have hFM : firstMin (f :: fs) =
        match firstMin fs with
        | none => some f
        | some m => some (if f.mtime ≤ m.mtime then f else m) := rfl
    rw [hFM]
    cases firstMin fs with
    | none => rfl
    | some m => rfl

lemma firstMin_cons_some (f : cleanup.TFile) (fs : List cleanup.TFile) :
    ∃ c, firstMin (f :: fs) = some c := by
  unfold firstMin
  cases firstMin fs with
  | none => exact ⟨f, rfl⟩
  | some m => exact ⟨if f.mtime ≤ m.mtime then f else m, rfl⟩

lemma firstMin_spec :
    ∀ (l : List cleanup.TFile) (c : cleanup.TFile), firstMin l = some c →
      (∀ x ∈ l, c.mtime ≤ x.mtime) ∧
      ∃ pre post, l = pre ++ c :: post ∧ ∀ x ∈ pre, c.mtime < x.mtime := by
  intro l
  induction l with
  | nil => intro c hc; exact absurd hc (by simp [firstMin])
  | cons f fs ih =>
    intro c hc
    unfold firstMin at hc
    cases hm : firstMin fs with
    | none =>
      rw [hm] at hc
      injection hc with hc
      subst hc
      have hfs : fs = [] := by
        cases fs with
        | nil => rfl
        | cons g gs =>
          obtain ⟨c', hc'⟩ := firstMin_cons_some g gs
          rw [hc'] at hm
          exact absurd hm (by simp)
      subst hfs
      exact ⟨by intro x hx; rcases List.mem_singleton.mp hx with rfl; exact le_refl _,
        [], [], rfl, by intro x hx; exact absurd hx (List.not_mem_nil x)⟩
    | some m =>
      rw [hm] at hc
      injection hc with hc
      obtain ⟨hmin, pre, post, hsplit, hlt⟩ := ih m hm
      by_cases hle : f.mtime ≤ m.mtime
      · rw [if_pos hle] at hc
        subst hc
        refine ⟨?_, [], fs, rfl, by intro x hx; exact absurd hx (List.not_mem_nil x)⟩
        intro x hx
        rcases List.mem_cons.mp hx with rfl | hx
        · exact le_refl _
        · exact le_trans hle (hmin x hx)
      · rw [if_neg hle] at hc
        subst hc
        refine ⟨?_, f :: pre, post, by rw [hsplit, List.cons_append], ?_⟩
        · intro x hx
          rcases List.mem_cons.mp hx with rfl | hx
          · exact le_of_lt (lt_of_not_le hle)
          · exact hmin x hx
        · intro x hx
          rcases List.mem_cons.mp hx with rfl | hx
          · exact lt_of_not_le hle
          · exact hlt x hx

/-- C6: `choose_canonical` picks exactly the member with the oldest
modification time, and on an exact tie the earliest-listed one: the chosen
file splits the group as `pre ++ c :: post` where every member of `pre`
is strictly newer and no member anywhere is older. -/
theorem choose_canonical_oldest_first (g : List cleanup.TFile) (hne : g ≠ []) :
    ∃ c, cleanup.choose_canonical g = some c ∧
      (∀ x ∈ g, c.mtime ≤ x.mtime) ∧
      ∃ pre post, g = pre ++ c :: post ∧ ∀ x ∈ pre, c.mtime < x.mtime := by
  cases g with
  | nil => exact absurd rfl hne
  | cons f fs =>
    obtain ⟨c, hc⟩ := firstMin_cons_some f fs
    refine ⟨c, ?_, firstMin_spec (f :: fs) c hc⟩
    unfold cleanup.choose_canonical
    rw [sortByMtime_head_eq_firstMin, hc]

/-- C6 witness: three stored files with distinct mtimes — the application
of `choose_canonical_oldest_first`, plus the concrete evaluation pinning
the canonical member to the oldest file `b.png`. -/
theorem choose_canonical_witness :
    (([⟨"a.png", 5⟩, ⟨"b.png", 3⟩, ⟨"c.png", 9⟩] : List cleanup.TFile) ≠ []) ∧
    (∃ c, cleanup.choose_canonical
        ([⟨"a.png", 5⟩, ⟨"b.png", 3⟩, ⟨"c.png", 9⟩] : List cleanup.TFile) = some c ∧
      (∀ x ∈ ([⟨"a.png", 5⟩, ⟨"b.png", 3⟩, ⟨"c.png", 9⟩] : List cleanup.TFile),
        c.mtime ≤ x.mtime) ∧
      ∃ pre post,
        ([⟨"a.png", 5⟩, ⟨"b.png", 3⟩, ⟨"c.png", 9⟩] : List cleanup.TFile) =
          pre ++ c :: post ∧ ∀ x ∈ pre, c.mtime < x.mtime) ∧
    cleanup.choose_canonical
        ([⟨"a.png", 5⟩, ⟨"b.png", 3⟩, ⟨"c.png", 9⟩] : List cleanup.TFile) =
      some ⟨"b.png", 3⟩ :=
  ⟨by decide,
   choose_canonical_oldest_first _ (by decide),
   by decide⟩

/-! ### C5 -/

lemma acceptCandidate_iff (newPrice : Int) (chosenHash : String) (srcBin : Int)
    (e : main.SessionEntry) :
    main.acceptCandidate newPrice chosenHash srcBin e = true ↔
      specAcceptCond newPrice chosenHash srcBin e := by
  unfold main.acceptCandidate specAcceptCond
  rw [Bool.or_eq_true, decide_eq_true_iff]
  by_cases hg : chosenHash ≠ "" ∧ e.thumbHash ≠ ""
  · rw [if_pos hg]
    cases hh : utils.hamming_distance_hex chosenHash e.thumbHash with
    | none =>
      constructor
      · rintro (h | h)
        · exact Or.inl h
        · exact absurd h (by simp)
      · rintro (h | ⟨d, _, _, heq, _, _⟩)
        · exact Or.inl h
        · exact absurd heq (by simp)
    | some d0 =>
      constructor
      · rintro (h | h)
        · exact Or.inl h
        · have h' : (decide (d0 ≤ 8) &&
              decide (utils.hue_bin_distance srcBin e.hbin 12 ≤ 1)) = true := h
          rw [Bool.and_eq_true] at h'
          exact Or.inr ⟨d0, hg.1, hg.2, rfl,
            of_decide_eq_true h'.1, of_decide_eq_true h'.2⟩
      · rintro (h | ⟨d, _, _, heq, hle, hhue⟩)
        · exact Or.inl h
        · injection heq with heq
          have hle0 : d0 ≤ 8 := by rw [heq]; exact hle
          refine Or.inr ?_
          have h' : (decide (d0 ≤ 8) &&
              decide (utils.hue_bin_distance srcBin e.hbin 12 ≤ 1)) = true := by
            rw [Bool.and_eq_true]
            exact ⟨decide_eq_true hle0, decide_eq_true hhue⟩
          exact h'
  · rw [if_neg hg]
    constructor
    · rintro (h | h)
      · exact Or.inl h
      · exact absurd h (by simp)
    · rintro (h | ⟨d, h1, h2, _, _, _⟩)
      · exact Or.inl h
      · exact absurd ⟨h1, h2⟩ hg

/-- C5: characterization of the identity-key disambiguation.  An existing
candidate key (one sharing the `category:cleanName` beginning) is accepted
exactly when its recorded price equals the new price, or its recorded
fingerprint is within Hamming distance 8 of the chosen hash and the
hue-bin distance is at most 1; with no sharing key the bare base key is
used; with sharing keys the first acceptable candidate in iteration order
becomes the identity key; and when none accepts, a new key is minted as
the base plus `#` plus the chosen hash (or the time-derived suffix when no
hash is available). -/
theorem identity_key_disambiguation (keyPre : String)
    (index : List (String × main.SessionEntry)) (newPrice : Int)
    (chosenHash : String) (srcBin : Int) (timeSuffix : String) :
    (∀ e : main.SessionEntry,
      main.acceptCandidate newPrice chosenHash srcBin e = true ↔
      specAcceptCond newPrice chosenHash srcBin e) ∧
    (index.filter (fun kv => strStartsWith kv.1 keyPre) = [] →
      main.resolveIdentityKey keyPre index newPrice chosenHash srcBin timeSuffix =
        keyPre) ∧
    (∀ pre kv post,
      index.filter (fun kv => strStartsWith kv.1 keyPre) = pre ++ kv :: post →
      specAcceptCond newPrice chosenHash srcBin kv.2 →
      (∀ kv' ∈ pre, ¬ specAcceptCond newPrice chosenHash srcBin kv'.2) →
      main.resolveIdentityKey keyPre index newPrice chosenHash srcBin timeSuffix =
        kv.1) ∧
    (index.filter (fun kv => strStartsWith kv.1 keyPre) ≠ [] →
      (∀ kv ∈ index.filter (fun kv => strStartsWith kv.1 keyPre),
        ¬ specAcceptCond newPrice chosenHash srcBin kv.2) →
      main.resolveIdentityKey keyPre index newPrice chosenHash srcBin timeSuffix =
        keyPre ++ "#" ++ (if chosenHash ≠ "" then chosenHash else timeSuffix)) := by
  refine ⟨acceptCandidate_iff newPrice chosenHash srcBin, ?_, ?_, ?_⟩
  · intro hfilter
    unfold main.resolveIdentityKey
    rw [if_pos hfilter]
  · intro pre kv post hfilter hcond hprev
    unfold main.resolveIdentityKey
    rw [hfilter]
    have hne : ¬ (pre ++ kv :: post = []) := by
      cases pre <;> simp
    rw [if_neg hne]
    have hpre : pre.find?
        (fun kv => main.acceptCandidate newPrice chosenHash srcBin kv.2) = none := by
      rw [List.find?_eq_none]
      intro kv' hmem hacc
      exact hprev kv' hmem ((acceptCandidate_iff newPrice chosenHash srcBin kv'.2).mp hacc)
    have hacc : main.acceptCandidate newPrice chosenHash srcBin kv.2 = true :=
      (acceptCandidate_iff newPrice chosenHash srcBin kv.2).mpr hcond
    have hcons : List.find?
        (fun kv => main.acceptCandidate newPrice chosenHash srcBin kv.2)
        (kv :: post) = some kv :=
      @List.find?_cons_of_pos _
        (fun kv => main.acceptCandidate newPrice chosenHash srcBin kv.2) kv post hacc
    rw [List.find?_append, hpre, Option.none_or, hcons]
  · intro hne hall
    unfold main.resolveIdentityKey
    rw [if_neg hne]
    have hfind : (index.filter (fun kv => strStartsWith kv.1 keyPre)).find?
        (fun kv => main.acceptCandidate newPrice chosenHash srcBin kv.2) = none := by
      rw [List.find?_eq_none]
      intro kv hmem hacc
      exact hall kv hmem ((acceptCandidate_iff newPrice chosenHash srcBin kv.2).mp hacc)
    rw [hfind]

/-- C5 witness: with one session key `Armor:VestX` recorded at price
15000, fingerprint `ab`, hue bin 3 — a new observation at a different
price but fingerprint `aa` (distance 1) and the same hue bin resolves to
the existing key, while one whose hue bin is 6 bins away mints
`Armor:VestX#aa`. -/
theorem identity_key_disambiguation_witness :
    main.resolveIdentityKey "Armor:VestX" [("Armor:VestX", ⟨15000, "ab", 3⟩)]
      999 "aa" 3 "ts" = "Armor:VestX" ∧
    main.resolveIdentityKey "Armor:VestX" [("Armor:VestX", ⟨15000, "ab", 9⟩)]
      999 "aa" 3 "ts" = "Armor:VestX#aa" := by
  constructor
  · exact (identity_key_disambiguation "Armor:VestX"
      [("Armor:VestX", ⟨15000, "ab", 3⟩)] 999 "aa" 3 "ts").2.2.1
      [] ("Armor:VestX", ⟨15000, "ab", 3⟩) [] (by decide)
      (Or.inr ⟨1, by decide, by decide, by decide, by decide, by decide⟩)
      (by simp)
  · have h := (identity_key_disambiguation "Armor:VestX"
      [("Armor:VestX", ⟨15000, "ab", 9⟩)] 999 "aa" 3 "ts").2.2.2
      (by decide)
      (by
        intro kv hkv
        have hkv' : kv = ("Armor:VestX", ⟨15000, "ab", 9⟩) ∧
            strStartsWith kv.1 "Armor:VestX" = true := by
          simpa using hkv
        obtain ⟨hkv1, -⟩ := hkv'
        subst hkv1
        rintro (h | ⟨d, _, _, _, _, hhue⟩)
        · exact absurd h (by decide)
        · exact absurd hhue (by decide))
    simpa using h

/-! ### C2 -/

/-- C2: the batch reconciler does not accept the bare `thumbHash`
reference form.  With the rename map sending `aa.png` to `bb.png`, a
snapshot whose entry carries only `thumbHash = "aa"` is left unchanged and
counted as unchanged, while the same reference expressed as
`thumbPath = "thumbs/aa.png"` is rewritten — the bare-stem form the
capture session currently writes is never rewritten, contradicting the
claim that both forms are accepted. -/
theorem update_snapshots_ignores_thumb_hash :
    cleanup.update_snapshots mapAA [snapHashOnly] true = ([snapHashOnly], 0) ∧
    (cleanup.update_snapshots mapAA [snapPathOnly] true).2 = 1 ∧
    (cleanup.update_snapshots mapAA [snapPathOnly] true).1 =
      [⟨[("Helmet", [⟨"Aviator Helmet", 15000, some "aa", some "thumbs/bb.png"⟩])]⟩] := by
  decide

end AbiMarket
